import Mathlib

/-! # Hotel pipeline: merge, normalisation and fetch coordination

A shallow embedding of `domain/hotel.go` and `application/hotel_fetcher.go`.

Modelling conventions.

* A Go `string` that was decoded from JSON is valid UTF-8, so it is a Lean `String`
  (a list of Unicode scalar values).  Go's `len(s)` is the number of BYTES of the
  UTF-8 encoding, which is `String.utf8ByteSize`; it is not the number of characters.
* Go's `<` on strings compares bytes; on valid UTF-8 this is the code point
  lexicographic order (`runesLess`), which is also the order of `String` in Lean
  (`stringLE_iff`).
* A Go map is the list of its entries (`GoMap`); the order in which `range` visits them,
  and the order in which goroutines finish, are chosen by a `Runtime`, any rearrangement.
* `log.Printf` output is not modelled.
* A Go slice is a `List`; a `nil` slice and an empty slice are both `[]`.
* `*Hotel` receivers are mutated in place in Go; here a method returns the new value
  of its receiver.
* The case table behind `unicode.ToLower` belongs to the Go standard library and is not
  part of the repository: the rune mapping is a parameter `lower : Char → Char` of every
  definition that uses `strings.ToLower`.
-/

namespace HotelPipeline

/-! ## Data model (`domain/hotel.go`, lines 9-38) -/

structure Location where
  Address : String
  Country : String
deriving DecidableEq, Repr

structure Amenities where
  General : List String
  Room : List String
deriving DecidableEq, Repr

structure Image where
  Link : String
  Caption : String
deriving DecidableEq, Repr

structure Images where
  Rooms : List Image
  Site : List Image
deriving DecidableEq, Repr

structure Hotel where
  HotelID : String
  DestinationID : Int
  HotelName : String
  Location : Location
  Details : String
  Amenities : Amenities
  Images : Images
  BookingConditions : List String
deriving DecidableEq, Repr

/-! ## The pieces of the Go standard library the code calls -/

/-- Go's `unicode.IsSpace`: the code points with the Unicode White_Space property. -/
def isSpace (c : Char) : Bool :=
  let n := c.toNat
  (9 ≤ n && n ≤ 13) || n == 0x20 || n == 0x85 || n == 0xA0 || n == 0x1680 ||
    (0x2000 ≤ n && n ≤ 0x200A) || n == 0x2028 || n == 0x2029 || n == 0x202F ||
    n == 0x205F || n == 0x3000

/-- Go's `strings.TrimSpace`: drop the leading, then the trailing white space. -/
def TrimSpace (s : String) : String :=
  ⟨(s.data.dropWhile isSpace).rdropWhile isSpace⟩

/-- Go's `strings.ToLower` on valid UTF-8: the rune mapping applied to every rune. -/
def ToLower (lower : Char → Char) (s : String) : String :=
  ⟨s.data.map lower⟩

/-- Go's `len(s)` for a string: the length in bytes of its UTF-8 encoding. -/
def len (s : String) : Nat :=
  s.utf8ByteSize

/-- Go's `s < t` on strings, rune by rune: on valid UTF-8 the byte-wise comparison of the
runtime and the comparison by code points agree. -/
def runesLess : List Char → List Char → Bool
  | _, [] => false
  | [], _ :: _ => true
  | a :: as, b :: bs => decide (a.toNat < b.toNat) || (decide (a = b) && runesLess as bs)

/-- Go's `s <= t` on strings. -/
def stringLE (s t : String) : Bool :=
  !runesLess t.data s.data

/-- Go's `sort.Strings`: the ascending rearrangement of the slice.  Strings that compare
equal are identical, so the result does not depend on the sorting algorithm. -/
def sortStrings (l : List String) : List String :=
  l.insertionSort (fun s t => stringLE s t = true)

/-! ## `domain/hotel.go` -/

/-- `cleanStringSlice` (lines 88-97). -/
def cleanStringSlice (slice : List String) : List String :=
  slice.foldl
    (fun result s =>
      let trimmed := TrimSpace s
      if trimmed ≠ "" then result ++ [trimmed] else result)
    []

/-- `cleanImages` (lines 99-109). -/
def cleanImages (images : List Image) : List Image :=
  images.foldl
    (fun result img =>
      let img : Image := { img with Link := TrimSpace img.Link }
      let img : Image := { img with Caption := TrimSpace img.Caption }
      if img.Link ≠ "" then result ++ [img] else result)
    []

/-- The loop body of `mergeStringSlices` (lines 116-120): the state is the `seen` set (the
keys marked `true`) and the `result` slice. -/
def mergeStringSlicesStep (lower : Char → Char) (st : List String × List String)
    (s : String) : List String × List String :=
  let lowerS := ToLower lower (TrimSpace s)
  if lowerS ∉ st.1 ∧ lowerS ≠ "" then (lowerS :: st.1, st.2 ++ [TrimSpace s]) else st

/-- `mergeStringSlices` (lines 111-125). -/
def mergeStringSlices (lower : Char → Char) (a b : List String) : List String :=
  sortStrings ((a ++ b).foldl (mergeStringSlicesStep lower) ([], [])).2

/-- The loop body of `mergeImages` (lines 132-139): the state is the `seen` set of links
and the `result` slice. -/
def mergeImagesStep (st : List String × List Image) (img : Image) :
    List String × List Image :=
  let link := TrimSpace img.Link
  if link ∉ st.1 ∧ link ≠ "" then
    (link :: st.1, st.2 ++ [{ Link := link, Caption := TrimSpace img.Caption }])
  else st

/-- `mergeImages` (lines 127-143). -/
def mergeImages (a b : List Image) : List Image :=
  ((a ++ b).foldl mergeImagesStep ([], [])).2

/-- `Hotel.CleanData` (lines 48-62). -/
def CleanData (h : Hotel) : Hotel :=
  { HotelID := TrimSpace h.HotelID
    DestinationID := h.DestinationID
    HotelName := TrimSpace h.HotelName
    Location :=
      { Address := TrimSpace h.Location.Address
        Country := TrimSpace h.Location.Country }
    Details := TrimSpace h.Details
    Amenities :=
      { General := cleanStringSlice h.Amenities.General
        Room := cleanStringSlice h.Amenities.Room }
    Images :=
      { Rooms := cleanImages h.Images.Rooms
        Site := cleanImages h.Images.Site }
    BookingConditions := cleanStringSlice h.BookingConditions }

/-- `Hotel.MergeWith` (lines 64-86): the receiver after the call. -/
def MergeWith (lower : Char → Char) (h other : Hotel) : Hotel :=
  { HotelID := h.HotelID
    DestinationID := h.DestinationID
    HotelName :=
      if TrimSpace h.HotelName = "" ∧ TrimSpace other.HotelName ≠ "" then other.HotelName
      else h.HotelName
    Location :=
      { Address :=
          if TrimSpace h.Location.Address = "" ∧ TrimSpace other.Location.Address ≠ "" then
            other.Location.Address
          else h.Location.Address
        Country :=
          if TrimSpace h.Location.Country = "" ∧ TrimSpace other.Location.Country ≠ "" then
            other.Location.Country
          else h.Location.Country }
    Details :=
      if len (TrimSpace other.Details) > len (TrimSpace h.Details) then other.Details
      else h.Details
    Amenities :=
      { General := mergeStringSlices lower h.Amenities.General other.Amenities.General
        Room := mergeStringSlices lower h.Amenities.Room other.Amenities.Room }
    Images :=
      { Rooms := mergeImages h.Images.Rooms other.Images.Rooms
        Site := mergeImages h.Images.Site other.Images.Site }
    BookingConditions := mergeStringSlices lower h.BookingConditions other.BookingConditions }

/-- `Hotel.Validate` (lines 145-153): `none` is Go's `nil` error. -/
def Validate (h : Hotel) : Option String :=
  if h.HotelID = "" then some "hotel ID is required"
  else if h.DestinationID ≤ 0 then some "destination ID must be positive"
  else none

/-! ## Go maps, the scheduler and the repository -/

/-- A Go map, as the list of its entries (at most one per key). -/
abbrev GoMap (κ ν : Type) := List (κ × ν)

/-- The map read `v, exists := m[k]`. -/
def GoMap.get {κ ν : Type} [DecidableEq κ] (m : GoMap κ ν) (k : κ) : Option ν :=
  (m.find? (fun e => decide (e.1 = k))).map (fun e => e.2)

/-- The map write `m[k] = v`. -/
def GoMap.set {κ ν : Type} [DecidableEq κ] (m : GoMap κ ν) (k : κ) (v : ν) : GoMap κ ν :=
  if m.any (fun e => decide (e.1 = k)) then
    m.map (fun e => if e.1 = k then (k, v) else e)
  else m ++ [(k, v)]

/-- What the Go runtime leaves unspecified: the order in which the fetch goroutines reach
their critical section, and the order in which `range` visits each of the three maps. -/
structure Runtime where
  finish : List (String × Except String (List Hotel)) →
    List (String × Except String (List Hotel))
  finish_perm : ∀ l, (finish l).Perm l
  rangeSuppliers : GoMap String (List Hotel) → List (String × List Hotel)
  rangeSuppliers_perm : ∀ m, (rangeSuppliers m).Perm m
  rangeHotels : GoMap String Hotel → List (String × Hotel)
  rangeHotels_perm : ∀ m, (rangeHotels m).Perm m
  rangeDestinations : GoMap Int (List Hotel) → List (Int × List Hotel)
  rangeDestinations_perm : ∀ m, (rangeDestinations m).Perm m

/-- The two writing methods of `domain.HotelRepository` (lines 40-46), over a store of
type `σ`; the `Option String` is the returned `error`. -/
structure HotelRepository (σ : Type) where
  StoreHotelByID : σ → String → Hotel → σ × Option String
  StoreHotelsByDestinationID : σ → Int → List Hotel → σ × Option String

/-- A call received by the repository. -/
inductive RepoCall where
  | StoreHotelByID (hotelID : String) (hotel : Hotel)
  | StoreHotelsByDestinationID (destinationID : Int) (hotels : List Hotel)
deriving DecidableEq, Repr

/-- The repository's store together with the calls it has received so far. -/
structure World (σ : Type) where
  store : σ
  calls : List RepoCall

/-! ## `application/hotel_fetcher.go` -/

/-- `HotelFetcher.fetchFromSupplier` (lines 81-110); `get` is the HTTP request, the status
check and the JSON decoding (lines 82-103): the decoded records, or the error. -/
def fetchFromSupplier (get : String → Except String (List Hotel)) (url : String) :
    Except String (List Hotel) :=
  match get url with
  | .error err => .error err
  | .ok hotels => .ok (hotels.map CleanData)

/-- The inner loop of `mergeHotelsByID` (lines 116-129), for one supplier's records. -/
def mergeHotelsByIDStep (lower : Char → Char) (mergedHotels : GoMap String Hotel)
    (hotel : Hotel) : GoMap String Hotel :=
  if hotel.HotelID = "" then mergedHotels
  else
    match mergedHotels.get hotel.HotelID with
    | some existing => mergedHotels.set hotel.HotelID (MergeWith lower existing hotel)
    | none => mergedHotels.set hotel.HotelID hotel

/-- `HotelFetcher.mergeHotelsByID` (lines 112-133). -/
def mergeHotelsByID (lower : Char → Char) (rt : Runtime)
    (hotelsBySupplier : GoMap String (List Hotel)) : GoMap String Hotel :=
  (rt.rangeSuppliers hotelsBySupplier).foldl
    (fun mergedHotels entry => entry.2.foldl (mergeHotelsByIDStep lower) mergedHotels)
    []

/-- The body of the first loop of `storeHotels` (lines 138-149). -/
def storeHotelsStep {σ : Type} (repository : HotelRepository σ)
    (st : World σ × GoMap Int (List Hotel)) (entry : String × Hotel) :
    World σ × GoMap Int (List Hotel) :=
  let hotel := entry.2
  match Validate hotel with
  | some _ => st
  | none =>
    let w : World σ :=
      { store := (repository.StoreHotelByID st.1.store hotel.HotelID hotel).1
        calls := st.1.calls ++ [RepoCall.StoreHotelByID hotel.HotelID hotel] }
    (w, st.2.set hotel.DestinationID
      (((st.2.get hotel.DestinationID).getD []) ++ [hotel]))

/-- The body of the second loop of `storeHotels` (lines 151-155). -/
def storeDestinationStep {σ : Type} (repository : HotelRepository σ) (w : World σ)
    (entry : Int × List Hotel) : World σ :=
  { store := (repository.StoreHotelsByDestinationID w.store entry.1 entry.2).1
    calls := w.calls ++ [RepoCall.StoreHotelsByDestinationID entry.1 entry.2] }

/-- The map `hotelsByDestination` of `storeHotels` after the first loop, with the world. -/
def storeHotelsGroup {σ : Type} (repository : HotelRepository σ) (rt : Runtime)
    (w : World σ) (hotels : GoMap String Hotel) : World σ × GoMap Int (List Hotel) :=
  (rt.rangeHotels hotels).foldl (storeHotelsStep repository) (w, [])

/-- `HotelFetcher.storeHotels` (lines 135-158): the returned error and the world after. -/
def storeHotels {σ : Type} (repository : HotelRepository σ) (rt : Runtime)
    (w : World σ) (hotels : GoMap String Hotel) : Option String × World σ :=
  let st := storeHotelsGroup repository rt w hotels
  (none, (rt.rangeDestinations st.2).foldl (storeDestinationStep repository) st.1)

/-- The critical sections of the fetch goroutines (lines 46-56), taken in the order in
which the goroutines reach them: the state is `hotelsBySupplier` and `fetchErrors`. -/
def collectStep (st : GoMap String (List Hotel) × List String)
    (r : String × Except String (List Hotel)) : GoMap String (List Hotel) × List String :=
  match r.2 with
  | .error err => (st.1, st.2 ++ [err])
  | .ok hotels => (st.1.set r.1 hotels, st.2)

/-- The outcome of every fetch goroutine of `FetchAndProcess` (lines 40-60): goroutine `i`
fetches `supplierURLs[i]` through `get i`. -/
def fetchAll (get : Nat → String → Except String (List Hotel))
    (supplierURLs : List String) : List (String × Except String (List Hotel)) :=
  supplierURLs.enum.map (fun p => (p.2, fetchFromSupplier (get p.1) p.2))

/-- `HotelFetcher.FetchAndProcess` (lines 31-79): the returned error and the world after. -/
def FetchAndProcess {σ : Type} (lower : Char → Char) (repository : HotelRepository σ)
    (rt : Runtime) (get : Nat → String → Except String (List Hotel))
    (supplierURLs : List String) (w : World σ) : Option String × World σ :=
  let hotelsBySupplier :=
    ((rt.finish (fetchAll get supplierURLs)).foldl collectStep ([], [])).1
  if hotelsBySupplier.length = 0 then (some "no data fetched from any supplier", w)
  else
    let mergedHotels := mergeHotelsByID lower rt hotelsBySupplier
    match storeHotels repository rt w mergedHotels with
    | (some err, w1) => (some ("failed to store hotels: " ++ err), w1)
    | (none, w1) => (none, w1)

/-! ## Definitions used to state the properties -/

/-- The comparison key of an entry of a set-like field: its lowercased, trimmed form. -/
def comparisonKey (lower : Char → Char) (s : String) : String :=
  ToLower lower (TrimSpace s)

/-- For each distinct key the first entry that carries it, in first-seen order. -/
def keepFirstBy {α : Type} (key : α → String) : List α → List α
  | [] => []
  | x :: xs => x :: (keepFirstBy key xs).filter (fun y => key y ≠ key x)

/-- An image with link and caption trimmed. -/
def trimImage (img : Image) : Image :=
  { Link := TrimSpace img.Link, Caption := TrimSpace img.Caption }

/-- The image merge as the specification words it: trim link and caption of the
concatenation, discard the entries whose link is empty, and keep for each distinct link its
first occurrence. -/
def mergeImagesSpec (a b : List Image) : List Image :=
  keepFirstBy (fun img => img.Link)
    (((a ++ b).map trimImage).filter (fun img => img.Link ≠ ""))

/-- Every entry of `old` has a case-insensitively equal entry in `new`. -/
def KeysKept (lower : Char → Char) (old new : List String) : Prop :=
  ∀ s ∈ old, ∃ t ∈ new, comparisonKey lower t = comparisonKey lower s

/-- Every link of `old` is in `new`, with the caption of its first occurrence in `old`. -/
def LinksKept (old new : List Image) : Prop :=
  ∀ x ∈ old, ∃ y, old.find? (fun z => decide (z.Link = x.Link)) = some y ∧
    ({ Link := x.Link, Caption := y.Caption } : Image) ∈ new

/-- A set-like list as a merge leaves it: ascending, with pairwise distinct keys. -/
def MergedForm (lower : Char → Char) (l : List String) : Prop :=
  l.Sorted (· ≤ ·) ∧ (l.map (comparisonKey lower)).Nodup

/-- An image list as a merge leaves it: with pairwise distinct links. -/
def DistinctLinks (l : List Image) : Prop :=
  (l.map (fun img => img.Link)).Nodup

/-- The two lists give the same caption to every link they share (after trimming). -/
def CaptionsAgree (a b : List Image) : Prop :=
  ∀ x ∈ a, ∀ y ∈ b, TrimSpace x.Link = TrimSpace y.Link →
    TrimSpace x.Caption = TrimSpace y.Caption

/-! ## Example records -/

/-- A record with identity, group, name and description set and every list empty. -/
def exampleHotel (hotelID : String) (destinationID : Int) (name details : String) : Hotel :=
  { HotelID := hotelID
    DestinationID := destinationID
    HotelName := name
    Location := { Address := "", Country := "" }
    Details := details
    Amenities := { General := [], Room := [] }
    Images := { Rooms := [], Site := [] }
    BookingConditions := [] }

/-- Supplier A's record of the specification's merge example. -/
def supplierA : Hotel := exampleHotel "h1" 5 "" "short"

/-- Supplier B's record of the specification's merge example. -/
def supplierB : Hotel := exampleHotel "h1" 5 "Hotel One" "a longer description text"

/-- A record whose description is one character of one byte. -/
def oneByte : Hotel := exampleHotel "h1" 5 "" "a"

/-- A record whose description is one character of two bytes. -/
def twoBytes : Hotel := exampleHotel "h1" 5 "" "é"

/-- A normalized record whose general amenities are not in ascending order. -/
def unsortedRecord : Hotel :=
  { exampleHotel "h1" 5 "Hotel One" "short" with
    Amenities := { General := ["WiFi", "Pool"], Room := [] } }

/-- A normalized record whose lists are all in merged form. -/
def mergedRecord : Hotel :=
  { exampleHotel "h1" 5 "Hotel One" "short" with
    Amenities := { General := ["Pool", "WiFi"], Room := ["Desk"] }
    Images := { Rooms := [{ Link := "u1", Caption := "Bed" }], Site := [] }
    BookingConditions := ["No pets"] }

/-- A normalized image list. -/
def lobbyImages : List Image := [{ Link := "u1", Caption := "Lobby" }]

/-- A normalized image list with the link of `lobbyImages` under another caption. -/
def frontDeskImages : List Image := [{ Link := "u1", Caption := "Front desk" }]

/-- A normalized image list that shares the link `u2`, with its caption, with
`barImages`. -/
def poolImages : List Image :=
  [{ Link := "u1", Caption := "Lobby" }, { Link := "u2", Caption := "Pool" }]

/-- A normalized image list that shares the link `u2`, with its caption, with
`poolImages`. -/
def barImages : List Image :=
  [{ Link := "u2", Caption := "Pool" }, { Link := "u3", Caption := "Bar" }]

/-- A runtime in which goroutines finish in start order and `range` visits the entries in
insertion order. -/
def inOrder : Runtime :=
  { finish := fun l => l
    finish_perm := fun l => List.Perm.refl l
    rangeSuppliers := fun m => m
    rangeSuppliers_perm := fun m => List.Perm.refl m
    rangeHotels := fun m => m
    rangeHotels_perm := fun m => List.Perm.refl m
    rangeDestinations := fun m => m
    rangeDestinations_perm := fun m => List.Perm.refl m }

/-- A repository without a store that fails every write. -/
def failingRepository : HotelRepository Unit :=
  { StoreHotelByID := fun s _ _ => (s, some "connection refused")
    StoreHotelsByDestinationID := fun s _ _ => (s, some "connection refused") }

/-- A world in which the repository has received no call. -/
def freshWorld : World Unit :=
  { store := (), calls := [] }

/-- Three configured suppliers. -/
def threeSuppliers : List String :=
  ["https://a.example/hotels", "https://b.example/hotels", "https://c.example/hotels"]

/-- Every fetch fails. -/
def allFail : Nat → String → Except String (List Hotel) :=
  fun _ _ => .error "unexpected status code: 500"

/-- The first two fetches fail, the third returns supplier B's record. -/
def oneSurvives : Nat → String → Except String (List Hotel) :=
  fun i _ => if i = 2 then .ok [supplierB] else .error "unexpected status code: 500"

/-- The batches the repository received: the arguments of its
`StoreHotelsByDestinationID` calls, in the order of the calls. -/
def batchesOf (calls : List RepoCall) : List (Int × List Hotel) :=
  calls.filterMap (fun c =>
    match c with
    | .StoreHotelsByDestinationID destinationID hotels => some (destinationID, hotels)
    | .StoreHotelByID _ _ => none)

/-- The arguments of the `StoreHotelByID` calls the repository received, in the order of
the calls. -/
def storedByID (calls : List RepoCall) : List (String × Hotel) :=
  calls.filterMap (fun c =>
    match c with
    | .StoreHotelByID hotelID hotel => some (hotelID, hotel)
    | .StoreHotelsByDestinationID _ _ => none)

/-- The records of a map that pass `Validate`, in the order of the entries. -/
def validRecords (entries : List (String × Hotel)) : List Hotel :=
  (entries.map Prod.snd).filter (fun hotel => decide (Validate hotel = none))

/-- The calls the repository receives from `storeHotels` when it had received none. -/
def storeHotelsCalls {σ : Type} (repository : HotelRepository σ) (rt : Runtime) (store : σ)
    (hotels : GoMap String Hotel) : List RepoCall :=
  (storeHotels repository rt { store := store, calls := [] } hotels).2.calls

/-- The map `groups` holds exactly the records `records`, each under its `DestinationID`,
all of them valid, with one non-empty slice per key. -/
def IsGrouping (groups : GoMap Int (List Hotel)) (records : List Hotel) : Prop :=
  (groups.map Prod.fst).Nodup ∧ (groups.map Prod.snd).flatten.Perm records ∧
    ∀ e ∈ groups, e.2 ≠ [] ∧ ∀ hotel ∈ e.2, hotel.DestinationID = e.1 ∧ Validate hotel = none

/-- A record without identity. -/
def noIdentity : Hotel := exampleHotel "" 5 "Nameless" "no identity"

/-- A record with identity and a group key that is not positive. -/
def noGroup : Hotel := exampleHotel "h2" 0 "Hotel Two" "no group"

/-- A supplier-result mapping of two suppliers: the first also sent a record without
identity. -/
def twoSupplierResults : GoMap String (List Hotel) :=
  [("https://a.example/hotels", [CleanData supplierA, CleanData noIdentity]),
    ("https://b.example/hotels", [CleanData supplierB])]

/-- A merged identity map with one valid record and one record without group. -/
def mergedWithInvalid : GoMap String Hotel :=
  [("h1", CleanData supplierB), ("h2", CleanData noGroup)]

/-- Raw images: the first has a blank link and a caption, the second is padded. -/
def rawImages : List Image :=
  [{ Link := "  ", Caption := "Lobby" }, { Link := " u1 ", Caption := " Bar " }]

/-- A record whose description is four characters of one byte each. -/
def fourChars : Hotel := exampleHotel "h1" 5 "" "aaaa"

/-- A record whose description is two characters of three bytes each. -/
def twoWideChars : Hotel := exampleHotel "h1" 5 "" "日本"

/-- An incoming record for `mergedRecord`: another name, a longer description, amenities
in another casing and another caption for the link `u1`. -/
def incomingRecord : Hotel :=
  { exampleHotel "h1" 5 "Hotel 1" "a longer description text" with
    Location := { Address := "1 Main Street", Country := "SG" }
    Amenities := { General := ["wifi", "Spa"], Room := ["desk", "Safe"] }
    Images :=
      { Rooms := [{ Link := "u1", Caption := "Twin bed" }, { Link := "u2", Caption := "Bath" }]
        Site := [] }
    BookingConditions := ["no pets"] }

/-! # Theorems -/

/-! ## Strings -/

theorem dropWhile_rdropWhile_fixed {α : Type} (p : α → Bool) (l : List α) :
    ((l.dropWhile p).rdropWhile p).dropWhile p = (l.dropWhile p).rdropWhile p := by
  have hm : (l.dropWhile p).dropWhile p = l.dropWhile p := List.dropWhile_idempotent p l
  generalize l.dropWhile p = m at hm ⊢
  obtain ⟨t, ht⟩ := List.rdropWhile_prefix p (l := m)
  cases hT : m.rdropWhile p with
  | nil => rfl
  | cons x T =>
    rw [hT] at ht
    rw [← ht] at hm
    by_cases hx : p x = true
    · exfalso
      have h1 : List.dropWhile p (x :: T ++ t) = List.dropWhile p (T ++ t) := by
        simp [List.dropWhile, hx]
      have h2 := congrArg List.length hm
      rw [h1] at h2
      have h3 : (List.dropWhile p (T ++ t)).length ≤ (T ++ t).length :=
        (List.dropWhile_sublist p).length_le
      simp at h2 h3
      omega
    · simp [List.dropWhile, hx]

theorem TrimSpace_idem (s : String) : TrimSpace (TrimSpace s) = TrimSpace s := by
  simp only [TrimSpace]
  rw [dropWhile_rdropWhile_fixed, List.rdropWhile_idempotent]

theorem TrimSpace_empty : TrimSpace "" = "" := by decide

theorem ToLower_eq_empty (lower : Char → Char) (s : String) :
    ToLower lower s = "" ↔ s = "" := by
  cases s with
  | mk l =>
    cases l with
    | nil => simp [ToLower]
    | cons c cs => simp [ToLower, String.ext_iff]

theorem char_lt_iff (a b : Char) : a < b ↔ a.toNat < b.toNat := by
  show a.val < b.val ↔ _
  rfl

theorem runesLess_iff (s t : List Char) : runesLess s t = true ↔ s < t := by
  induction s generalizing t with
  | nil =>
    cases t with
    | nil => simp [runesLess]
    | cons b bs => simp [runesLess, List.nil_lt_cons]
  | cons a as ih =>
    cases t with
    | nil => simp [runesLess]
    | cons b bs =>
      simp only [runesLess, Bool.or_eq_true, Bool.and_eq_true, decide_eq_true_eq, ih,
        ← char_lt_iff]
      constructor
      · rintro (h | ⟨rfl, h⟩)
        · exact List.Lex.rel h
        · exact List.Lex.cons h
      · intro h
        cases h with
        | rel h => exact Or.inl h
        | cons h => exact Or.inr ⟨rfl, h⟩

theorem stringLE_iff (s t : String) : stringLE s t = true ↔ s ≤ t := by
  rw [String.le_iff_toList_le, ← not_lt]
  simp only [stringLE, Bool.not_eq_true', ← Bool.not_eq_true, runesLess_iff]
  rfl

/-! ## First occurrences -/

theorem keepFirstBy_filter {α : Type} (key : α → String) (q : String → Bool) (l : List α) :
    (keepFirstBy key l).filter (fun x => q (key x)) =
      keepFirstBy key (l.filter (fun x => q (key x))) := by
  induction l with
  | nil => rfl
  | cons x xs ih =>
    by_cases hq : q (key x) = true
    · simp only [keepFirstBy, List.filter_cons, hq, if_true]
      rw [← ih, List.filter_filter, List.filter_filter]
      congr 2
      funext y
      exact Bool.and_comm _ _
    · simp only [keepFirstBy, List.filter_cons, hq, if_false, Bool.false_eq_true]
      rw [← ih, List.filter_filter]
      congr 1
      funext y
      by_cases hy : key y = key x
      · simp [hy, hq]
      · simp [hy]

theorem keepFirstBy_sublist {α : Type} (key : α → String) (l : List α) :
    (keepFirstBy key l).Sublist l := by
  induction l with
  | nil => exact List.Sublist.slnil
  | cons x xs ih =>
    exact List.Sublist.cons₂ x ((List.filter_sublist _).trans ih)

theorem mem_of_mem_keepFirstBy {α : Type} (key : α → String) {l : List α} {x : α}
    (h : x ∈ keepFirstBy key l) : x ∈ l :=
  (keepFirstBy_sublist key l).subset h

theorem keepFirstBy_keys_nodup {α : Type} (key : α → String) (l : List α) :
    ((keepFirstBy key l).map key).Nodup := by
  induction l with
  | nil => exact List.nodup_nil
  | cons x xs ih =>
    simp only [keepFirstBy, List.map_cons, List.nodup_cons]
    refine ⟨?_, (ih.sublist ((List.filter_sublist _).map key))⟩
    simp only [List.mem_map, List.mem_filter, not_exists, not_and]
    intro y hy
    simpa using hy.2

theorem mem_keys_keepFirstBy {α : Type} (key : α → String) (l : List α) (k : String) :
    k ∈ (keepFirstBy key l).map key ↔ k ∈ l.map key := by
  induction l with
  | nil => simp [keepFirstBy]
  | cons x xs ih =>
    simp only [keepFirstBy, List.map_cons, List.mem_cons]
    constructor
    · rintro (h | h)
      · exact Or.inl h
      · refine Or.inr (ih.mp ?_)
        exact (List.filter_sublist _).map key |>.subset h
    · rintro (h | h)
      · exact Or.inl h
      · by_cases hk : k = key x
        · exact Or.inl hk
        · refine Or.inr ?_
          obtain ⟨y, hy, rfl⟩ := List.mem_map.mp (ih.mpr h)
          exact List.mem_map.mpr ⟨y, List.mem_filter.mpr ⟨hy, by simpa using hk⟩, rfl⟩

theorem keepFirstBy_eq_self {α : Type} (key : α → String) (l : List α)
    (h : (l.map key).Nodup) : keepFirstBy key l = l := by
  induction l with
  | nil => rfl
  | cons x xs ih =>
    simp only [List.map_cons, List.nodup_cons] at h
    simp only [keepFirstBy, ih h.2]
    congr 1
    rw [List.filter_eq_self]
    intro y hy
    have : key y ≠ key x := fun e => h.1 (e ▸ List.mem_map_of_mem key hy)
    simpa using this

theorem keepFirstBy_append {α : Type} (key : α → String) (l m : List α) :
    keepFirstBy key (l ++ m) =
      keepFirstBy key l ++ (keepFirstBy key m).filter (fun y => key y ∉ l.map key) := by
  induction l with
  | nil => simp [keepFirstBy]
  | cons x xs ih =>
    show keepFirstBy key (x :: (xs ++ m)) = _
    rw [keepFirstBy, ih, keepFirstBy, List.filter_append, List.filter_filter,
      List.cons_append]
    congr 2
    apply List.filter_congr
    intro y _
    by_cases h1 : key y = key x <;> by_cases h2 : key y ∈ xs.map key <;> simp [h1, h2]

theorem keepFirstBy_map {α β : Type} (key : β → String) (f : α → β) (l : List α) :
    keepFirstBy key (l.map f) = (keepFirstBy (fun x => key (f x)) l).map f := by
  induction l with
  | nil => rfl
  | cons x xs ih =>
    simp only [List.map_cons, keepFirstBy, ih, List.filter_map]
    rfl

theorem mem_keepFirstBy_iff {α : Type} (key : α → String) (l : List α) (x : α) :
    x ∈ keepFirstBy key l ↔ l.find? (fun y => decide (key y = key x)) = some x := by
  induction l with
  | nil => simp [keepFirstBy]
  | cons y ys ih =>
    simp only [keepFirstBy, List.mem_cons, List.mem_filter, List.find?_cons]
    by_cases hk : key y = key x
    · simp only [hk, decide_True]
      constructor
      · rintro (h | ⟨_, h⟩)
        · rw [h]
        · simp at h
      · intro h
        exact Or.inl (Option.some.inj h).symm
    · have hne : x ≠ y := fun e => hk (e ▸ rfl)
      simp only [hk, decide_False, hne, false_or, ih]
      constructor
      · exact fun h => h.1
      · intro h
        exact ⟨h, by simpa using fun e : key x = key y => hk e.symm⟩

theorem eq_of_mem_keepFirstBy {α : Type} (key : α → String) {l : List α} {x y : α}
    (hx : x ∈ keepFirstBy key l) (hy : y ∈ keepFirstBy key l) (h : key x = key y) :
    x = y := by
  rw [mem_keepFirstBy_iff] at hx hy
  rw [h] at hx
  exact Option.some.inj (hx.symm.trans hy)

/-- The loop shared by `mergeStringSlices` and `mergeImages`: a `seen` set of keys and a
result that receives the value of the first entry of every key that is not empty. -/
theorem foldl_seen_eq {α β : Type} (key : α → String) (val : α → β)
    (step : List String × List β → α → List String × List β)
    (hstep : ∀ st x, step st x =
      if key x ∉ st.1 ∧ key x ≠ "" then (key x :: st.1, st.2 ++ [val x]) else st)
    (l : List α) (seen : List String) (res : List β) :
    (l.foldl step (seen, res)).2 =
      res ++ (keepFirstBy key
        (l.filter (fun x => decide (key x ∉ seen ∧ key x ≠ "")))).map val := by
  induction l generalizing seen res with
  | nil => simp [keepFirstBy]
  | cons x xs ih =>
    rw [List.foldl_cons, hstep]
    by_cases hc : key x ∉ seen ∧ key x ≠ ""
    · rw [if_pos hc, ih, List.filter_cons, if_pos (by simpa using hc)]
      simp only [keepFirstBy, List.map_cons, List.append_assoc, List.singleton_append]
      congr 3
      have := keepFirstBy_filter key (fun k => decide (k ≠ key x))
        (xs.filter (fun y => decide (key y ∉ seen ∧ key y ≠ "")))
      simp only [] at this
      rw [this, List.filter_filter]
      congr 1
      apply List.filter_congr
      intro y _
      simp only [List.mem_cons, not_or, Bool.decide_and, Bool.and_eq_true, decide_eq_true_eq,
        decide_not, Bool.not_eq_true', decide_eq_false_iff_not, Bool.decide_eq_true]
      by_cases h1 : key y = key x <;> by_cases h2 : key y ∈ seen <;>
        by_cases h3 : key y = "" <;> simp [h1, h2, h3]
    · rw [if_neg hc, ih, List.filter_cons, if_neg (by simpa using hc)]

/-! ## The loops of `domain/hotel.go` in closed form -/

theorem foldl_append_if {α β : Type} (f : α → β) (p : α → Prop) [DecidablePred p]
    (l : List α) (res : List β) :
    l.foldl (fun r x => if p x then r ++ [f x] else r) res =
      res ++ (l.filter (fun x => decide (p x))).map f := by
  induction l generalizing res with
  | nil => simp
  | cons x xs ih =>
    rw [List.foldl_cons, ih]
    by_cases hp : p x <;> simp [hp]

theorem cleanStringSlice_eq (slice : List String) :
    cleanStringSlice slice = (slice.map TrimSpace).filter (fun s => decide (s ≠ "")) := by
  unfold cleanStringSlice
  have := foldl_append_if TrimSpace (fun s => TrimSpace s ≠ "") slice []
  simp only [List.nil_append] at this
  rw [this, List.filter_map]
  rfl

theorem cleanImages_eq (images : List Image) :
    cleanImages images =
      (images.map trimImage).filter (fun img => decide (img.Link ≠ "")) := by
  unfold cleanImages
  have := foldl_append_if trimImage (fun img => TrimSpace img.Link ≠ "") images []
  simp only [List.nil_append] at this
  rw [List.filter_map]
  exact this

theorem mergeImages_eq (a b : List Image) :
    mergeImages a b =
      (keepFirstBy (fun img => TrimSpace img.Link)
        ((a ++ b).filter (fun img => decide (TrimSpace img.Link ≠ "")))).map trimImage := by
  unfold mergeImages
  rw [foldl_seen_eq (fun (img : Image) => TrimSpace img.Link) trimImage mergeImagesStep
    (fun st x => rfl)]
  simp

/-- The result of `mergeStringSlices` before `sort.Strings`. -/
theorem mergeStringSlices_eq (lower : Char → Char) (a b : List String) :
    mergeStringSlices lower a b =
      sortStrings ((keepFirstBy (comparisonKey lower)
        ((a ++ b).filter (fun s => decide (comparisonKey lower s ≠ "")))).map TrimSpace) := by
  unfold mergeStringSlices
  rw [foldl_seen_eq (comparisonKey lower) TrimSpace (mergeStringSlicesStep lower)
    (fun st x => rfl)]
  simp

theorem comparisonKey_eq_empty (lower : Char → Char) (s : String) :
    comparisonKey lower s = "" ↔ TrimSpace s = "" :=
  ToLower_eq_empty lower _

theorem comparisonKey_TrimSpace (lower : Char → Char) (s : String) :
    comparisonKey lower (TrimSpace s) = comparisonKey lower s := by
  simp [comparisonKey, TrimSpace_idem]

theorem stringLE_total (s t : String) : stringLE s t = true ∨ stringLE t s = true := by
  simp only [stringLE_iff]
  exact le_total s t

theorem stringLE_trans (s t u : String) (h1 : stringLE s t = true)
    (h2 : stringLE t u = true) : stringLE s u = true := by
  rw [stringLE_iff] at *
  exact le_trans h1 h2

theorem sortStrings_perm (l : List String) : (sortStrings l).Perm l :=
  List.perm_insertionSort _ l

theorem sortStrings_sorted (l : List String) : (sortStrings l).Sorted (· ≤ ·) := by
  haveI : IsTotal String (fun s t => stringLE s t = true) := ⟨stringLE_total⟩
  haveI : IsTrans String (fun s t => stringLE s t = true) := ⟨stringLE_trans⟩
  have h := List.sorted_insertionSort (fun s t => stringLE s t = true) l
  exact h.imp (fun {a b} hab => (stringLE_iff a b).mp hab)

theorem sortStrings_eq_self (l : List String) (h : l.Sorted (· ≤ ·)) : sortStrings l = l := by
  apply List.Sorted.insertionSort_eq
  exact h.imp (fun {a b} hab => (stringLE_iff a b).mpr hab)

theorem mergeStringSlices_perm (lower : Char → Char) (a b : List String) :
    (mergeStringSlices lower a b).Perm
      ((keepFirstBy (comparisonKey lower)
        ((a ++ b).filter (fun s => decide (comparisonKey lower s ≠ "")))).map TrimSpace) := by
  rw [mergeStringSlices_eq]
  exact sortStrings_perm _

theorem mergeStringSlices_keys_perm (lower : Char → Char) (a b : List String) :
    ((mergeStringSlices lower a b).map (comparisonKey lower)).Perm
      ((keepFirstBy (comparisonKey lower)
        ((a ++ b).filter (fun s => decide (comparisonKey lower s ≠ "")))).map
          (comparisonKey lower)) := by
  have h := (mergeStringSlices_perm lower a b).map (comparisonKey lower)
  rw [List.map_map] at h
  have e : comparisonKey lower ∘ TrimSpace = comparisonKey lower :=
    funext (comparisonKey_TrimSpace lower)
  rwa [e] at h

theorem mergeStringSlices_keys_nodup (lower : Char → Char) (a b : List String) :
    ((mergeStringSlices lower a b).map (comparisonKey lower)).Nodup :=
  (mergeStringSlices_keys_perm lower a b).nodup_iff.mpr (keepFirstBy_keys_nodup _ _)

theorem mem_mergeStringSlices_keys (lower : Char → Char) (a b : List String) (k : String) :
    k ∈ (mergeStringSlices lower a b).map (comparisonKey lower) ↔
      ∃ s ∈ a ++ b, TrimSpace s ≠ "" ∧ comparisonKey lower s = k := by
  rw [(mergeStringSlices_keys_perm lower a b).mem_iff, mem_keys_keepFirstBy]
  simp only [List.mem_map, List.mem_filter, decide_eq_true_eq, ne_eq,
    comparisonKey_eq_empty]
  constructor
  · rintro ⟨s, ⟨hs, hne⟩, rfl⟩
    exact ⟨s, hs, hne, rfl⟩
  · rintro ⟨s, hs, hne, rfl⟩
    exact ⟨s, ⟨hs, hne⟩, rfl⟩

/-! ## Scalar fields and description -/

theorem first_non_empty (x y : String) :
    (if TrimSpace (TrimSpace x) = "" ∧ TrimSpace (TrimSpace y) ≠ "" then TrimSpace y
      else TrimSpace x) = if TrimSpace x ≠ "" then TrimSpace x else TrimSpace y := by
  rw [TrimSpace_idem, TrimSpace_idem]
  by_cases hx : TrimSpace x = "" <;> by_cases hy : TrimSpace y = "" <;> simp [hx, hy]

/-- C2: for normalized hotels `h` and `o` (outputs of `CleanData`), after `h.MergeWith(o)`
each of `HotelName`, `Location.Address` and `Location.Country` is `h`'s previous value if
that value was non-empty and otherwise `o`'s value. -/
theorem mergeWith_scalars_first_non_empty (lower : Char → Char) (h0 o0 : Hotel) :
    (MergeWith lower (CleanData h0) (CleanData o0)).HotelName =
        (if (CleanData h0).HotelName ≠ "" then (CleanData h0).HotelName
          else (CleanData o0).HotelName) ∧
      (MergeWith lower (CleanData h0) (CleanData o0)).Location.Address =
        (if (CleanData h0).Location.Address ≠ "" then (CleanData h0).Location.Address
          else (CleanData o0).Location.Address) ∧
      (MergeWith lower (CleanData h0) (CleanData o0)).Location.Country =
        (if (CleanData h0).Location.Country ≠ "" then (CleanData h0).Location.Country
          else (CleanData o0).Location.Country) :=
  ⟨first_non_empty _ _, first_non_empty _ _, first_non_empty _ _⟩

/-- C2 at the specification's example: the name `""` merged with `"Hotel One"` gives
`"Hotel One"`. -/
theorem mergeWith_scalars_first_non_empty_witness :
    (CleanData supplierA).HotelName = "" ∧ (CleanData supplierB).HotelName = "Hotel One" ∧
      (MergeWith Char.toLower (CleanData supplierA) (CleanData supplierB)).HotelName =
        "Hotel One" :=
  ⟨by decide, by decide,
    (mergeWith_scalars_first_non_empty Char.toLower supplierA supplierB).1.trans (by decide)⟩

/-- C3 as stated fails: the description `"é"` has as many characters as `"a"` (one), not
strictly more, and yet it replaces `"a"`, because `len` counts its two bytes. -/
theorem mergeWith_details_characters_counterexample :
    (CleanData twoBytes).Details.length = (CleanData oneByte).Details.length ∧
      (MergeWith Char.toLower (CleanData oneByte) (CleanData twoBytes)).Details =
        (CleanData twoBytes).Details ∧
      (CleanData twoBytes).Details ≠ (CleanData oneByte).Details := by
  decide

/-- C3, amended: for normalized hotels `h` and `o`, after `h.MergeWith(o)` the `Details`
field is `o.Details` if `o.Details` has strictly more bytes (Go's `len`, the length of the
UTF-8 encoding) than `h`'s previous `Details`, and otherwise `h`'s previous `Details`. -/
theorem mergeWith_details_longer_bytes (lower : Char → Char) (h0 o0 : Hotel) :
    (MergeWith lower (CleanData h0) (CleanData o0)).Details =
      if (CleanData o0).Details.utf8ByteSize > (CleanData h0).Details.utf8ByteSize then
        (CleanData o0).Details
      else (CleanData h0).Details := by
  simp only [MergeWith, CleanData, TrimSpace_idem, len]

/-- C3, amended, at the specification's example: `"short"` merged with
`"a longer description text"` gives `"a longer description text"`. -/
theorem mergeWith_details_longer_bytes_witness :
    (MergeWith Char.toLower (CleanData supplierA) (CleanData supplierB)).Details =
      "a longer description text" :=
  (mergeWith_details_longer_bytes Char.toLower supplierA supplierB).trans (by decide)

/-! ## Set-like fields -/

/-- C4: `mergeStringSlices(a, b)` has exactly one entry for each distinct comparison key
(lowercased, trimmed form) of a non-blank entry of `a` or `b` and no other entry: its keys
are pairwise distinct, they are exactly the keys of the non-blank entries of `a` and `b`,
and its length is the number of distinct such keys. -/
theorem mergeStringSlices_one_entry_per_key (lower : Char → Char) (a b : List String) :
    ((mergeStringSlices lower a b).map (comparisonKey lower)).Nodup ∧
      (∀ k, k ∈ (mergeStringSlices lower a b).map (comparisonKey lower) ↔
        ∃ s ∈ a ++ b, TrimSpace s ≠ "" ∧ comparisonKey lower s = k) ∧
      (mergeStringSlices lower a b).length =
        (((a ++ b).filter (fun s => decide (TrimSpace s ≠ ""))).map
          (comparisonKey lower)).toFinset.card := by
  refine ⟨mergeStringSlices_keys_nodup lower a b, mem_mergeStringSlices_keys lower a b, ?_⟩
  have h := List.toFinset_card_of_nodup (mergeStringSlices_keys_nodup lower a b)
  rw [List.length_map] at h
  rw [← h]
  congr 1
  ext k
  rw [List.mem_toFinset, List.mem_toFinset, mem_mergeStringSlices_keys]
  simp only [List.mem_map, List.mem_filter, decide_eq_true_eq]
  constructor
  · rintro ⟨s, hs, hne, rfl⟩
    exact ⟨s, ⟨hs, hne⟩, rfl⟩
  · rintro ⟨s, ⟨hs, hne⟩, rfl⟩
    exact ⟨s, hs, hne, rfl⟩

/-- C4 at the specification's example: `["Pool"," pool ","WiFi"]` merged with
`["wifi","Spa"]` has exactly 3 entries, with the keys pool, spa and wifi. -/
theorem mergeStringSlices_one_entry_per_key_witness :
    ((mergeStringSlices Char.toLower ["Pool", " pool ", "WiFi"] ["wifi", "Spa"]).map
        (comparisonKey Char.toLower)).Nodup ∧
      (mergeStringSlices Char.toLower ["Pool", " pool ", "WiFi"] ["wifi", "Spa"]).map
        (comparisonKey Char.toLower) = ["pool", "spa", "wifi"] ∧
      (mergeStringSlices Char.toLower ["Pool", " pool ", "WiFi"] ["wifi", "Spa"]).length = 3 :=
  ⟨(mergeStringSlices_one_entry_per_key Char.toLower
      ["Pool", " pool ", "WiFi"] ["wifi", "Spa"]).1, by decide, by decide⟩

/-- C5: the list returned by `mergeStringSlices(a, b)` is sorted in ascending
lexicographic order of its stored values (every entry is at most every later entry, in
particular the entry after it); hence after any `MergeWith` the receiver's
`Amenities.General`, `Amenities.Room` and `BookingConditions` are sorted. -/
theorem mergeStringSlices_sorted (lower : Char → Char) (a b : List String) (h o : Hotel) :
    (mergeStringSlices lower a b).Sorted (· ≤ ·) ∧
      (mergeStringSlices lower a b).Chain' (· ≤ ·) ∧
      (MergeWith lower h o).Amenities.General.Sorted (· ≤ ·) ∧
      (MergeWith lower h o).Amenities.Room.Sorted (· ≤ ·) ∧
      (MergeWith lower h o).BookingConditions.Sorted (· ≤ ·) :=
  ⟨sortStrings_sorted _, (sortStrings_sorted _).chain', sortStrings_sorted _,
    sortStrings_sorted _, sortStrings_sorted _⟩

/-! ## Image fields -/

/-- C6: `mergeImages(a, b)` is the list obtained from `a` followed by `b` by trimming link
and caption, discarding the entries whose link is empty, and keeping for each distinct
link (compared exactly) only its first occurrence, with that occurrence's caption, in
first-seen order and without sorting. -/
theorem mergeImages_eq_spec (a b : List Image) : mergeImages a b = mergeImagesSpec a b := by
  rw [mergeImages_eq, mergeImagesSpec, List.filter_map, keepFirstBy_map]
  rfl

/-! ## Normalized lists -/

theorem trimImage_idem (img : Image) : trimImage (trimImage img) = trimImage img := by
  simp [trimImage, TrimSpace_idem]

theorem mem_cleanStringSlice {slice : List String} {s : String}
    (h : s ∈ cleanStringSlice slice) : TrimSpace s = s ∧ s ≠ "" := by
  rw [cleanStringSlice_eq, List.mem_filter, List.mem_map] at h
  obtain ⟨⟨s0, _, rfl⟩, hne⟩ := h
  exact ⟨TrimSpace_idem s0, by simpa using hne⟩

theorem mem_cleanImages {images : List Image} {img : Image}
    (h : img ∈ cleanImages images) : trimImage img = img ∧ img.Link ≠ "" := by
  rw [cleanImages_eq, List.mem_filter, List.mem_map] at h
  obtain ⟨⟨i0, _, rfl⟩, hne⟩ := h
  exact ⟨trimImage_idem i0, by simpa using hne⟩

theorem cleanStringSlice_of_clean (l : List String)
    (h : ∀ s ∈ l, TrimSpace s = s ∧ s ≠ "") : cleanStringSlice l = l := by
  rw [cleanStringSlice_eq]
  have hm : l.map TrimSpace = l := by
    conv_rhs => rw [← List.map_id l]
    exact List.map_congr_left (fun s hs => (h s hs).1)
  rw [hm, List.filter_eq_self]
  intro s hs
  simpa using (h s hs).2

theorem cleanImages_of_clean (l : List Image)
    (h : ∀ img ∈ l, trimImage img = img ∧ img.Link ≠ "") : cleanImages l = l := by
  rw [cleanImages_eq]
  have hm : l.map trimImage = l := by
    conv_rhs => rw [← List.map_id l]
    exact List.map_congr_left (fun s hs => (h s hs).1)
  rw [hm, List.filter_eq_self]
  intro s hs
  simpa using (h s hs).2

theorem cleanStringSlice_idem (l : List String) :
    cleanStringSlice (cleanStringSlice l) = cleanStringSlice l :=
  cleanStringSlice_of_clean _ (fun _ hs => mem_cleanStringSlice hs)

theorem cleanImages_idem (l : List Image) : cleanImages (cleanImages l) = cleanImages l :=
  cleanImages_of_clean _ (fun _ hs => mem_cleanImages hs)

theorem cleanStringSlice_append (a b : List String) :
    cleanStringSlice (a ++ b) = cleanStringSlice a ++ cleanStringSlice b := by
  simp [cleanStringSlice_eq]

theorem cleanImages_append (a b : List Image) :
    cleanImages (a ++ b) = cleanImages a ++ cleanImages b := by
  simp [cleanImages_eq]

/-- The image merge keeps the first occurrence of every link of the two normalized
lists. -/
theorem mergeImages_eq_clean (a b : List Image) :
    mergeImages a b =
      keepFirstBy (fun img => img.Link) (cleanImages a ++ cleanImages b) := by
  rw [mergeImages_eq, ← cleanImages_append, cleanImages_eq, List.filter_map, keepFirstBy_map]
  rfl

/-- The string merge sorts the first occurrence of every key of the two normalized
lists. -/
theorem mergeStringSlices_eq_clean (lower : Char → Char) (a b : List String) :
    mergeStringSlices lower a b =
      sortStrings (keepFirstBy (comparisonKey lower)
        (cleanStringSlice a ++ cleanStringSlice b)) := by
  rw [mergeStringSlices_eq, ← cleanStringSlice_append, cleanStringSlice_eq, List.filter_map,
    keepFirstBy_map]
  have e : (fun x => comparisonKey lower (TrimSpace x)) = comparisonKey lower :=
    funext (comparisonKey_TrimSpace lower)
  rw [e]
  congr 3
  apply List.filter_congr
  intro s _
  have := comparisonKey_eq_empty lower s
  simp [this]

theorem keepFirstBy_append_self {α : Type} (key : α → String) (l : List α)
    (h : (l.map key).Nodup) : keepFirstBy key (l ++ l) = l := by
  rw [keepFirstBy_append, keepFirstBy_eq_self key l h]
  have : l.filter (fun y => decide (key y ∉ l.map key)) = [] := by
    rw [List.filter_eq_nil_iff]
    intro y hy
    simpa using ⟨y, hy, rfl⟩
  rw [this, List.append_nil]

theorem mem_keepFirstBy_append_comm {α : Type} (key : α → String) (A B : List α)
    (hAB : ∀ x ∈ A, ∀ y ∈ B, key x = key y → x = y) (x : α)
    (hx : x ∈ keepFirstBy key (A ++ B)) : x ∈ keepFirstBy key (B ++ A) := by
  rw [keepFirstBy_append, List.mem_append, List.mem_filter] at hx ⊢
  rcases hx with hx | ⟨hx, _⟩
  · by_cases hk : key x ∈ B.map key
    · left
      obtain ⟨y, hy, hyk⟩ := List.mem_map.mp ((mem_keys_keepFirstBy key B (key x)).mpr hk)
      have := hAB x (mem_of_mem_keepFirstBy key hx) y (mem_of_mem_keepFirstBy key hy) hyk.symm
      rwa [this]
    · right
      exact ⟨hx, by simpa using hk⟩
  · exact Or.inl hx

/-! ## Monotonicity, idempotence and commutativity of the merge -/

theorem keep_non_empty (x y : String) (h : TrimSpace x ≠ "") :
    (if TrimSpace (TrimSpace x) = "" ∧ TrimSpace (TrimSpace y) ≠ "" then TrimSpace y
      else TrimSpace x) = TrimSpace x := by
  rw [TrimSpace_idem]
  simp [h]

theorem keysKept_mergeStringSlices (lower : Char → Char) (a0 b : List String) :
    KeysKept lower (cleanStringSlice a0)
      (mergeStringSlices lower (cleanStringSlice a0) b) := by
  intro s hs
  have hk : comparisonKey lower s ∈
      (mergeStringSlices lower (cleanStringSlice a0) b).map (comparisonKey lower) := by
    rw [mem_mergeStringSlices_keys]
    refine ⟨s, List.mem_append_left _ hs, ?_, rfl⟩
    rw [(mem_cleanStringSlice hs).1]
    exact (mem_cleanStringSlice hs).2
  obtain ⟨t, ht, htk⟩ := List.mem_map.mp hk
  exact ⟨t, ht, htk⟩

theorem linksKept_mergeImages (a0 b : List Image) :
    LinksKept (cleanImages a0) (mergeImages (cleanImages a0) b) := by
  intro x hx
  cases hf : (cleanImages a0).find? (fun z => decide (z.Link = x.Link)) with
  | none =>
    rw [List.find?_eq_none] at hf
    exact absurd (decide_eq_true (rfl : x.Link = x.Link)) (hf x hx)
  | some y =>
    refine ⟨y, rfl, ?_⟩
    have hy : y.Link = x.Link := by simpa using List.find?_some hf
    rw [mergeImages_eq_clean, cleanImages_idem, keepFirstBy_append]
    apply List.mem_append_left
    rw [mem_keepFirstBy_iff]
    simp only [hy]
    rw [hf, ← hy]

/-- C7 as stated fails when lengths are counted in characters, as the specification
counts them: the description `"aaaa"` (4 characters, 4 bytes) is replaced by `"日本"`
(2 characters, 6 bytes), so the `Details` text becomes shorter. -/
theorem mergeWith_keeps_information_characters_counterexample :
    (CleanData fourChars).Details = "aaaa" ∧ (CleanData twoWideChars).Details = "日本" ∧
      (MergeWith Char.toLower (CleanData fourChars) (CleanData twoWideChars)).Details =
        "日本" ∧
      (MergeWith Char.toLower (CleanData fourChars) (CleanData twoWideChars)).Details.length
        < (CleanData fourChars).Details.length := by
  decide

/-- C7, amended: merging never loses information already present in the canonical record,
with the length of the description counted in bytes.  For normalized hotels `h` and `o`,
after `h.MergeWith(o)` every non-empty `HotelName`, `Address` and `Country` of `h` is
unchanged, the `Details` text has at least as many bytes (Go's `len`, the length of the
UTF-8 encoding) as `h`'s previous `Details`, every entry of `h`'s `General`, `Room` and
`BookingConditions` lists has a case-insensitively equal entry in the corresponding result
list, and every image link of `h`'s `Rooms` and `Site` lists is in the corresponding
result list with the caption of its first occurrence in `h`. -/
theorem mergeWith_keeps_information (lower : Char → Char) (h0 o0 : Hotel) :
    ((CleanData h0).HotelName ≠ "" →
        (MergeWith lower (CleanData h0) (CleanData o0)).HotelName =
          (CleanData h0).HotelName) ∧
      ((CleanData h0).Location.Address ≠ "" →
        (MergeWith lower (CleanData h0) (CleanData o0)).Location.Address =
          (CleanData h0).Location.Address) ∧
      ((CleanData h0).Location.Country ≠ "" →
        (MergeWith lower (CleanData h0) (CleanData o0)).Location.Country =
          (CleanData h0).Location.Country) ∧
      len (CleanData h0).Details ≤
        len (MergeWith lower (CleanData h0) (CleanData o0)).Details ∧
      KeysKept lower (CleanData h0).Amenities.General
        (MergeWith lower (CleanData h0) (CleanData o0)).Amenities.General ∧
      KeysKept lower (CleanData h0).Amenities.Room
        (MergeWith lower (CleanData h0) (CleanData o0)).Amenities.Room ∧
      KeysKept lower (CleanData h0).BookingConditions
        (MergeWith lower (CleanData h0) (CleanData o0)).BookingConditions ∧
      LinksKept (CleanData h0).Images.Rooms
        (MergeWith lower (CleanData h0) (CleanData o0)).Images.Rooms ∧
      LinksKept (CleanData h0).Images.Site
        (MergeWith lower (CleanData h0) (CleanData o0)).Images.Site := by
  refine ⟨keep_non_empty _ _, keep_non_empty _ _, keep_non_empty _ _, ?_,
    keysKept_mergeStringSlices lower _ _, keysKept_mergeStringSlices lower _ _,
    keysKept_mergeStringSlices lower _ _, linksKept_mergeImages _ _,
    linksKept_mergeImages _ _⟩
  simp only [MergeWith, CleanData, TrimSpace_idem]
  split
  · rename_i hlt
    exact Nat.le_of_lt hlt
  · exact Nat.le_refl _

/-- C7, amended, at a record with a name, amenities and an image, merged with a record
that differs in all of them: the name and the caption of `u1` stay, the amenities keep
their keys, and the description grows. -/
theorem mergeWith_keeps_information_witness :
    (CleanData mergedRecord).HotelName ≠ "" ∧
      (MergeWith Char.toLower (CleanData mergedRecord) (CleanData incomingRecord)).HotelName =
        "Hotel One" ∧
      len (CleanData mergedRecord).Details ≤
        len (MergeWith Char.toLower (CleanData mergedRecord)
          (CleanData incomingRecord)).Details ∧
      (MergeWith Char.toLower (CleanData mergedRecord)
        (CleanData incomingRecord)).Details = "a longer description text" ∧
      (MergeWith Char.toLower (CleanData mergedRecord)
        (CleanData incomingRecord)).Amenities.General = ["Pool", "Spa", "WiFi"] ∧
      KeysKept Char.toLower (CleanData mergedRecord).Amenities.General
        (MergeWith Char.toLower (CleanData mergedRecord)
          (CleanData incomingRecord)).Amenities.General ∧
      (MergeWith Char.toLower (CleanData mergedRecord)
        (CleanData incomingRecord)).Images.Rooms =
          [{ Link := "u1", Caption := "Bed" }, { Link := "u2", Caption := "Bath" }] ∧
      LinksKept (CleanData mergedRecord).Images.Rooms
        (MergeWith Char.toLower (CleanData mergedRecord)
          (CleanData incomingRecord)).Images.Rooms :=
  ⟨by decide,
    ((mergeWith_keeps_information Char.toLower mergedRecord incomingRecord).1
      (by decide)).trans (by decide),
    (mergeWith_keeps_information Char.toLower mergedRecord incomingRecord).2.2.2.1,
    by decide, by decide,
    (mergeWith_keeps_information Char.toLower mergedRecord incomingRecord).2.2.2.2.1,
    by decide,
    (mergeWith_keeps_information Char.toLower mergedRecord incomingRecord).2.2.2.2.2.2.2.1⟩

theorem self_scalar (x : String) :
    (if TrimSpace x = "" ∧ TrimSpace x ≠ "" then x else x) = x := by
  split <;> rfl

theorem mergeStringSlices_self (lower : Char → Char) (l0 : List String)
    (h : MergedForm lower (cleanStringSlice l0)) :
    mergeStringSlices lower (cleanStringSlice l0) (cleanStringSlice l0) =
      cleanStringSlice l0 := by
  rw [mergeStringSlices_eq_clean, cleanStringSlice_idem, keepFirstBy_append_self _ _ h.2,
    sortStrings_eq_self _ h.1]

theorem mergeImages_self (l0 : List Image) (h : DistinctLinks (cleanImages l0)) :
    mergeImages (cleanImages l0) (cleanImages l0) = cleanImages l0 := by
  rw [mergeImages_eq_clean, cleanImages_idem, keepFirstBy_append_self _ _ h]

/-- C8 as stated fails: `unsortedRecord` is an output of `CleanData`, and merging it into
an identical copy reorders its general amenities. -/
theorem mergeWith_self_counterexample :
    CleanData unsortedRecord = unsortedRecord ∧
      (CleanData unsortedRecord).Amenities.General = ["WiFi", "Pool"] ∧
      (MergeWith Char.toLower (CleanData unsortedRecord)
        (CleanData unsortedRecord)).Amenities.General = ["Pool", "WiFi"] ∧
      MergeWith Char.toLower (CleanData unsortedRecord) (CleanData unsortedRecord) ≠
        CleanData unsortedRecord := by
  decide

/-- C8, amended: merging a record with itself is idempotent once its lists are in merged
form.  For every hotel `X` that is the output of `CleanData`, whose amenity and
booking-condition lists are ascending with pairwise distinct comparison keys and whose
image lists have pairwise distinct links, `MergeWith(X)` on an identical copy of `X` leaves
every field of the copy equal to the corresponding field of `X`. -/
theorem mergeWith_self (lower : Char → Char) (x0 : Hotel)
    (hGeneral : MergedForm lower (CleanData x0).Amenities.General)
    (hRoom : MergedForm lower (CleanData x0).Amenities.Room)
    (hBooking : MergedForm lower (CleanData x0).BookingConditions)
    (hRooms : DistinctLinks (CleanData x0).Images.Rooms)
    (hSite : DistinctLinks (CleanData x0).Images.Site) :
    MergeWith lower (CleanData x0) (CleanData x0) = CleanData x0 := by
  simp only [CleanData] at hGeneral hRoom hBooking hRooms hSite
  simp only [MergeWith, CleanData, self_scalar, lt_irrefl, gt_iff_lt, if_false,
    mergeStringSlices_self lower _ hGeneral, mergeStringSlices_self lower _ hRoom,
    mergeStringSlices_self lower _ hBooking, mergeImages_self _ hRooms,
    mergeImages_self _ hSite]

theorem mergedForm_iff (lower : Char → Char) (l : List String) :
    MergedForm lower l ↔
      sortStrings l = l ∧ (l.map (comparisonKey lower)).Nodup := by
  constructor
  · exact fun h => ⟨sortStrings_eq_self l h.1, h.2⟩
  · exact fun h => ⟨h.1 ▸ sortStrings_sorted l, h.2⟩

/-- C8, amended, at a concrete record: the lists of `mergedRecord` are in merged form, and
merging it into an identical copy changes nothing. -/
theorem mergeWith_self_witness :
    CleanData mergedRecord = mergedRecord ∧
      MergeWith Char.toLower (CleanData mergedRecord) (CleanData mergedRecord) =
        CleanData mergedRecord :=
  ⟨by decide,
    mergeWith_self Char.toLower mergedRecord
      ((mergedForm_iff _ _).mpr (by decide)) ((mergedForm_iff _ _).mpr (by decide))
      ((mergedForm_iff _ _).mpr (by decide)) (by unfold DistinctLinks; decide)
      (by unfold DistinctLinks; decide)⟩

/-- C9: the merge of set-like fields is commutative up to the retained casing:
`mergeStringSlices(a, b)` and `mergeStringSlices(b, a)` have the same length and the same
set of comparison keys, so each entry of one has a case-insensitively equal entry in the
other. -/
theorem mergeStringSlices_comm_keys (lower : Char → Char) (a b : List String) :
    (mergeStringSlices lower a b).length = (mergeStringSlices lower b a).length ∧
      (∀ k, k ∈ (mergeStringSlices lower a b).map (comparisonKey lower) ↔
        k ∈ (mergeStringSlices lower b a).map (comparisonKey lower)) ∧
      KeysKept lower (mergeStringSlices lower a b) (mergeStringSlices lower b a) ∧
      KeysKept lower (mergeStringSlices lower b a) (mergeStringSlices lower a b) := by
  have hmem : ∀ (a b : List String) (k : String),
      k ∈ (mergeStringSlices lower a b).map (comparisonKey lower) →
        k ∈ (mergeStringSlices lower b a).map (comparisonKey lower) := by
    intro a b k hk
    rw [mem_mergeStringSlices_keys] at hk ⊢
    obtain ⟨s, hs, hne, hsk⟩ := hk
    exact ⟨s, by simpa [or_comm] using hs, hne, hsk⟩
  have hkept : ∀ a b : List String,
      KeysKept lower (mergeStringSlices lower a b) (mergeStringSlices lower b a) := by
    intro a b s hs
    obtain ⟨t, ht, htk⟩ := List.mem_map.mp (hmem a b _ (List.mem_map_of_mem _ hs))
    exact ⟨t, ht, htk⟩
  have hperm : ((mergeStringSlices lower a b).map (comparisonKey lower)).Perm
      ((mergeStringSlices lower b a).map (comparisonKey lower)) :=
    (List.perm_ext_iff_of_nodup (mergeStringSlices_keys_nodup lower a b)
      (mergeStringSlices_keys_nodup lower b a)).mpr (fun k => ⟨hmem a b k, hmem b a k⟩)
  refine ⟨?_, fun k => ⟨hmem a b k, hmem b a k⟩, hkept a b, hkept b a⟩
  simpa using hperm.length_eq

/-- C10 as stated fails: two normalized image lists that give one link two captions merge
to different entries in the two orders. -/
theorem mergeImages_comm_counterexample :
    cleanImages lobbyImages = lobbyImages ∧ cleanImages frontDeskImages = frontDeskImages ∧
      ({ Link := "u1", Caption := "Lobby" } : Image) ∈
        mergeImages lobbyImages frontDeskImages ∧
      ({ Link := "u1", Caption := "Lobby" } : Image) ∉
        mergeImages frontDeskImages lobbyImages := by
  decide

theorem mem_mergeImages_first (a b : List Image) (img : Image)
    (h : img ∈ mergeImages a b) :
    ∃ x, (a ++ b).find? (fun y => decide (TrimSpace y.Link = img.Link)) = some x ∧
      img = trimImage x := by
  rw [mergeImages_eq, List.mem_map] at h
  obtain ⟨x, hx, rfl⟩ := h
  refine ⟨x, ?_, rfl⟩
  have hne : TrimSpace x.Link ≠ "" := by
    simpa using (List.mem_filter.mp (mem_of_mem_keepFirstBy _ hx)).2
  rw [mem_keepFirstBy_iff, List.find?_filter] at hx
  rw [← hx]
  congr 1
  funext y
  by_cases hy : TrimSpace y.Link = TrimSpace x.Link
  · simp [trimImage, hy, hne]
  · simp [trimImage, hy]

/-- C10, amended: the merge of image fields is commutative on links.  `mergeImages(a, b)`
and `mergeImages(b, a)` contain the same links, differing at most in order; every entry of
`mergeImages(a, b)` is the trimmed form of the first entry of `a` followed by `b` that has
its link, so the caption kept for a link is that of its first occurrence in the
concatenation; and the two results contain the same image entries when `a` and `b` give
the same caption to every link they share. -/
theorem mergeImages_comm_links (a b : List Image) :
    ((mergeImages a b).map (fun img => img.Link)).Perm
        ((mergeImages b a).map (fun img => img.Link)) ∧
      (∀ img ∈ mergeImages a b,
        ∃ x, (a ++ b).find? (fun y => decide (TrimSpace y.Link = img.Link)) = some x ∧
          img = trimImage x) ∧
      (CaptionsAgree a b → (mergeImages a b).Perm (mergeImages b a)) := by
  refine ⟨?_, mem_mergeImages_first a b, ?_⟩
  · rw [mergeImages_eq_clean, mergeImages_eq_clean]
    refine (List.perm_ext_iff_of_nodup (keepFirstBy_keys_nodup _ _)
      (keepFirstBy_keys_nodup _ _)).mpr (fun k => ?_)
    rw [mem_keys_keepFirstBy, mem_keys_keepFirstBy]
    simp only [List.map_append, List.mem_append]
    exact or_comm
  · intro hagree
    have hAB : ∀ x ∈ cleanImages a, ∀ y ∈ cleanImages b, x.Link = y.Link → x = y := by
      intro x hx y hy hxy
      rw [cleanImages_eq, List.mem_filter, List.mem_map] at hx hy
      obtain ⟨⟨x0, hx0, rfl⟩, _⟩ := hx
      obtain ⟨⟨y0, hy0, rfl⟩, _⟩ := hy
      have hc := hagree x0 hx0 y0 hy0 hxy
      simp only [trimImage] at hxy ⊢
      rw [hxy, hc]
    rw [mergeImages_eq_clean, mergeImages_eq_clean]
    refine (List.perm_ext_iff_of_nodup (keepFirstBy_keys_nodup _ _).of_map
      (keepFirstBy_keys_nodup _ _).of_map).mpr (fun x => ⟨?_, ?_⟩)
    · exact mem_keepFirstBy_append_comm _ _ _ hAB x
    · exact mem_keepFirstBy_append_comm _ _ _
        (fun y hy z hz hyz => (hAB z hz y hy hyz.symm).symm) x

/-- C10, amended, at concrete lists: `lobbyImages` and `frontDeskImages` give the link
`u1` two captions, and each order keeps the caption that comes first; `poolImages` and
`barImages` share the link `u2` with one caption, and the two orders give the same three
entries. -/
theorem mergeImages_comm_links_witness :
    mergeImages lobbyImages frontDeskImages = [{ Link := "u1", Caption := "Lobby" }] ∧
      mergeImages frontDeskImages lobbyImages = [{ Link := "u1", Caption := "Front desk" }] ∧
      ((mergeImages lobbyImages frontDeskImages).map (fun img => img.Link)).Perm
        ((mergeImages frontDeskImages lobbyImages).map (fun img => img.Link)) ∧
      CaptionsAgree poolImages barImages ∧
      mergeImages poolImages barImages =
        [{ Link := "u1", Caption := "Lobby" }, { Link := "u2", Caption := "Pool" },
          { Link := "u3", Caption := "Bar" }] ∧
      (mergeImages poolImages barImages).Perm (mergeImages barImages poolImages) :=
  ⟨by decide, by decide, (mergeImages_comm_links lobbyImages frontDeskImages).1,
    by unfold CaptionsAgree; decide, by decide,
    (mergeImages_comm_links poolImages barImages).2.2 (by unfold CaptionsAgree; decide)⟩

/-! ## `FetchAndProcess`: total failure -/

theorem GoMap.set_ne_nil {κ ν : Type} [DecidableEq κ] (m : GoMap κ ν) (k : κ) (v : ν) :
    GoMap.set m k v ≠ [] := by
  unfold GoMap.set
  split
  · rename_i hany
    intro hnil
    have hm : m = [] := List.map_eq_nil_iff.mp hnil
    rw [hm] at hany
    simp at hany
  · simp

theorem collectStep_fst_ne_nil (st : GoMap String (List Hotel) × List String)
    (r : String × Except String (List Hotel)) (h : st.1 ≠ []) :
    (collectStep st r).1 ≠ [] := by
  unfold collectStep
  split
  · exact h
  · exact GoMap.set_ne_nil _ _ _

theorem foldl_collectStep_ne_nil (l : List (String × Except String (List Hotel)))
    (st : GoMap String (List Hotel) × List String) (h : st.1 ≠ []) :
    (l.foldl collectStep st).1 ≠ [] := by
  induction l generalizing st with
  | nil => exact h
  | cons r rs ih => exact ih _ (collectStep_fst_ne_nil st r h)

theorem foldl_collectStep_eq_nil (l : List (String × Except String (List Hotel)))
    (errs : List String) :
    (l.foldl collectStep ([], errs)).1 = [] ↔ ∀ r ∈ l, ∃ err, r.2 = .error err := by
  induction l generalizing errs with
  | nil => simp
  | cons r rs ih =>
    rw [List.foldl_cons]
    cases hr : r.2 with
    | error err =>
      have hs : collectStep ([], errs) r = ([], errs ++ [err]) := by
        simp [collectStep, hr]
      rw [hs, ih]
      simp [hr]
    | ok hotels =>
      have hs : (collectStep ([], errs) r).1 ≠ [] := by
        simp only [collectStep, hr]
        exact GoMap.set_ne_nil _ _ _
      constructor
      · intro h
        exact absurd h (foldl_collectStep_ne_nil rs _ hs)
      · intro h
        obtain ⟨err, he⟩ := h r (List.mem_cons_self _ _)
        rw [hr] at he
        cases he

theorem mem_fetchAll (get : Nat → String → Except String (List Hotel))
    (supplierURLs : List String) (r : String × Except String (List Hotel)) :
    r ∈ fetchAll get supplierURLs ↔
      ∃ i url, supplierURLs[i]? = some url ∧ r = (url, fetchFromSupplier (get i) url) := by
  unfold fetchAll
  rw [List.mem_map]
  constructor
  · rintro ⟨p, hp, rfl⟩
    exact ⟨p.1, p.2, List.mem_enum_iff_getElem?.mp hp, rfl⟩
  · rintro ⟨i, url, hi, rfl⟩
    exact ⟨(i, url), List.mk_mem_enum_iff_getElem?.mpr hi, rfl⟩

theorem storeHotels_fst {σ : Type} (repository : HotelRepository σ) (rt : Runtime)
    (w : World σ) (hotels : GoMap String Hotel) :
    (storeHotels repository rt w hotels).1 = none :=
  rfl

/-- C1: for every list of supplier URLs, every outcome of the fetches (goroutine `i`
fetches `supplierURLs[i]` and succeeds with a record list or fails), every order in which
the goroutines finish and the maps are ranged over, and every repository,
`FetchAndProcess` returns an error if and only if no supplier fetch succeeded; and whenever
it returns an error, the repository has received no call: neither `StoreHotelByID` nor
`StoreHotelsByDestinationID` has been called and its store is as before. -/
theorem fetchAndProcess_error_iff_no_fetch_succeeded {σ : Type} (lower : Char → Char)
    (repository : HotelRepository σ) (rt : Runtime)
    (get : Nat → String → Except String (List Hotel)) (supplierURLs : List String)
    (w : World σ) :
    ((FetchAndProcess lower repository rt get supplierURLs w).1 ≠ none ↔
        ∀ i url, supplierURLs[i]? = some url →
          ∃ err, fetchFromSupplier (get i) url = .error err) ∧
      ((FetchAndProcess lower repository rt get supplierURLs w).1 ≠ none →
        (FetchAndProcess lower repository rt get supplierURLs w).2.calls = w.calls ∧
          (FetchAndProcess lower repository rt get supplierURLs w).2.store = w.store) := by
  have hnil : ((rt.finish (fetchAll get supplierURLs)).foldl collectStep ([], [])).1 = [] ↔
      ∀ i url, supplierURLs[i]? = some url →
        ∃ err, fetchFromSupplier (get i) url = .error err := by
    rw [foldl_collectStep_eq_nil]
    constructor
    · intro h i url hi
      exact h (url, fetchFromSupplier (get i) url)
        ((rt.finish_perm _).mem_iff.mpr ((mem_fetchAll _ _ _).mpr ⟨i, url, hi, rfl⟩))
    · intro h r hr
      obtain ⟨i, url, hi, rfl⟩ := (mem_fetchAll _ _ _).mp ((rt.finish_perm _).mem_iff.mp hr)
      exact h i url hi
  by_cases hm : ((rt.finish (fetchAll get supplierURLs)).foldl collectStep ([], [])).1 = []
  · have hr : FetchAndProcess lower repository rt get supplierURLs w =
        (some "no data fetched from any supplier", w) := by
      simp [FetchAndProcess, hm]
    rw [hr]
    exact ⟨⟨fun _ => hnil.mp hm, fun _ => by simp⟩, fun _ => ⟨rfl, rfl⟩⟩
  · have hr : (FetchAndProcess lower repository rt get supplierURLs w).1 = none := by
      have hlen : ¬ ((rt.finish (fetchAll get supplierURLs)).foldl collectStep
          ([], [])).1.length = 0 := by
        simpa [List.length_eq_zero] using hm
      simp only [FetchAndProcess, hlen, if_false]
      rfl
    rw [hr]
    exact ⟨⟨fun h => absurd rfl h, fun h => absurd (hnil.mpr h) hm⟩, fun h => absurd rfl h⟩

/-- C1 at the specification's examples: when all 3 suppliers fail the run returns an error
and the repository receives no call; when 2 of 3 fail the run returns no error and the
surviving supplier's record is written, although every write fails. -/
theorem fetchAndProcess_error_iff_no_fetch_succeeded_witness :
    (FetchAndProcess Char.toLower failingRepository inOrder allFail threeSuppliers
        freshWorld).1 = some "no data fetched from any supplier" ∧
      (FetchAndProcess Char.toLower failingRepository inOrder allFail threeSuppliers
        freshWorld).2.calls = [] ∧
      (FetchAndProcess Char.toLower failingRepository inOrder oneSurvives threeSuppliers
        freshWorld).1 = none ∧
      (FetchAndProcess Char.toLower failingRepository inOrder oneSurvives threeSuppliers
        freshWorld).2.calls =
          [RepoCall.StoreHotelByID "h1" (CleanData supplierB),
            RepoCall.StoreHotelsByDestinationID 5 [CleanData supplierB]] :=
  ⟨by decide,
    ((fetchAndProcess_error_iff_no_fetch_succeeded Char.toLower failingRepository inOrder
      allFail threeSuppliers freshWorld).2 (by decide)).1,
    by decide, by decide⟩

/-! ## Go maps -/

theorem GoMap.get_eq_none_iff {κ ν : Type} [DecidableEq κ] (m : GoMap κ ν) (k : κ) :
    GoMap.get m k = none ↔ k ∉ m.map Prod.fst := by
  simp only [GoMap.get, Option.map_eq_none', List.find?_eq_none, decide_eq_true_eq,
    List.mem_map, not_exists, not_and]

theorem GoMap.mem_of_get_eq_some {κ ν : Type} [DecidableEq κ] {m : GoMap κ ν} {k : κ} {v : ν}
    (h : GoMap.get m k = some v) : (k, v) ∈ m := by
  simp only [GoMap.get, Option.map_eq_some'] at h
  obtain ⟨e, he, rfl⟩ := h
  have hk : e.1 = k := by simpa using List.find?_some he
  have hm := List.mem_of_find?_eq_some he
  rw [← hk]
  exact hm

theorem GoMap.any_iff {κ ν : Type} [DecidableEq κ] (m : GoMap κ ν) (k : κ) :
    m.any (fun e => decide (e.1 = k)) = true ↔ k ∈ m.map Prod.fst := by
  simp only [List.any_eq_true, decide_eq_true_eq, List.mem_map]

theorem GoMap.keys_set {κ ν : Type} [DecidableEq κ] (m : GoMap κ ν) (k : κ) (v : ν) :
    (GoMap.set m k v).map Prod.fst =
      if k ∈ m.map Prod.fst then m.map Prod.fst else m.map Prod.fst ++ [k] := by
  unfold GoMap.set
  by_cases hk : k ∈ m.map Prod.fst
  · rw [if_pos ((GoMap.any_iff m k).mpr hk), if_pos hk, List.map_map]
    apply List.map_congr_left
    intro e _
    by_cases he : e.1 = k <;> simp [he]
  · rw [if_neg (fun h => hk ((GoMap.any_iff m k).mp h)), if_neg hk]
    simp

theorem GoMap.mem_set {κ ν : Type} [DecidableEq κ] (m : GoMap κ ν) (k : κ) (v : ν)
    (e : κ × ν) :
    e ∈ GoMap.set m k v ↔ e = (k, v) ∨ (e.1 ≠ k ∧ e ∈ m) := by
  unfold GoMap.set
  by_cases hk : k ∈ m.map Prod.fst
  · rw [if_pos ((GoMap.any_iff m k).mpr hk), List.mem_map]
    constructor
    · rintro ⟨e0, he0, rfl⟩
      by_cases h : e0.1 = k
      · simp [h]
      · simp [h, he0]
    · rintro (rfl | ⟨hne, he⟩)
      · obtain ⟨e0, he0, hk0⟩ := List.mem_map.mp hk
        exact ⟨e0, he0, by simp [hk0]⟩
      · exact ⟨e, he, by simp [hne]⟩
  · rw [if_neg (fun h => hk ((GoMap.any_iff m k).mp h)), List.mem_append,
      List.mem_singleton]
    constructor
    · rintro (he | rfl)
      · exact Or.inr ⟨fun h => hk (h ▸ List.mem_map_of_mem Prod.fst he), he⟩
      · exact Or.inl rfl
    · rintro (rfl | ⟨_, he⟩)
      · exact Or.inr rfl
      · exact Or.inl he

theorem GoMap.keys_set_nodup {κ ν : Type} [DecidableEq κ] (m : GoMap κ ν) (k : κ) (v : ν)
    (h : (m.map Prod.fst).Nodup) : ((GoMap.set m k v).map Prod.fst).Nodup := by
  rw [GoMap.keys_set]
  split
  · exact h
  · rename_i hk
    exact List.Nodup.append h (List.nodup_singleton k) (by simpa using hk)

theorem GoMap.mem_keys_set {κ ν : Type} [DecidableEq κ] (m : GoMap κ ν) (k : κ) (v : ν)
    (k' : κ) : k' ∈ (GoMap.set m k v).map Prod.fst ↔ k' = k ∨ k' ∈ m.map Prod.fst := by
  rw [GoMap.keys_set]
  split
  · rename_i hk
    constructor
    · exact Or.inr
    · rintro (rfl | h)
      · exact hk
      · exact h
  · simp [or_comm]

theorem GoMap.set_cons_ne {κ ν : Type} [DecidableEq κ] (e : κ × ν) (m : GoMap κ ν) (k : κ)
    (v : ν) (h : e.1 ≠ k) : GoMap.set (e :: m) k v = e :: GoMap.set m k v := by
  unfold GoMap.set
  simp only [List.any_cons, h, decide_False, Bool.false_or, List.map_cons, if_false]
  split <;> rfl

theorem GoMap.set_cons_eq {κ ν : Type} [DecidableEq κ] (v0 : ν) (m : GoMap κ ν) (k : κ)
    (v : ν) (h : k ∉ m.map Prod.fst) : GoMap.set ((k, v0) :: m) k v = (k, v) :: m := by
  unfold GoMap.set
  simp only [List.any_cons, decide_True, Bool.true_or, if_true, List.map_cons]
  congr 1
  conv_rhs => rw [← List.map_id m]
  apply List.map_congr_left
  intro e he
  have : e.1 ≠ k := fun hk => h (hk ▸ List.mem_map_of_mem Prod.fst he)
  simp [this]

theorem GoMap.get_cons {κ ν : Type} [DecidableEq κ] (e : κ × ν) (m : GoMap κ ν) (k : κ) :
    GoMap.get (e :: m) k = if e.1 = k then some e.2 else GoMap.get m k := by
  unfold GoMap.get
  by_cases h : e.1 = k <;> simp [List.find?_cons, h]

/-- Appending a record to the slice stored under a key adds that record, and nothing else,
to the records of the map. -/
theorem GoMap.flatten_set_append {κ ν : Type} [DecidableEq κ] (m : GoMap κ (List ν)) (k : κ)
    (x : ν) (h : (m.map Prod.fst).Nodup) :
    ((GoMap.set m k ((GoMap.get m k).getD [] ++ [x])).map Prod.snd).flatten.Perm
      ((m.map Prod.snd).flatten ++ [x]) := by
  induction m with
  | nil => simp [GoMap.set, GoMap.get]
  | cons e m ih =>
    simp only [List.map_cons, List.nodup_cons] at h
    by_cases hk : e.1 = k
    · obtain ⟨k0, v0⟩ := e
      simp only at hk
      subst hk
      rw [GoMap.get_cons, if_pos rfl, GoMap.set_cons_eq _ _ _ _ h.1]
      simp only [Option.getD_some, List.map_cons, List.flatten_cons, List.append_assoc]
      exact List.Perm.append_left _ List.perm_append_comm
    · rw [GoMap.get_cons, if_neg hk, GoMap.set_cons_ne _ _ _ _ hk]
      simp only [List.map_cons, List.flatten_cons, List.append_assoc]
      exact List.Perm.append_left _ (ih h.2)

/-! ## `mergeHotelsByID` -/

theorem MergeWith_HotelID (lower : Char → Char) (h other : Hotel) :
    (MergeWith lower h other).HotelID = h.HotelID :=
  rfl

theorem MergeWith_DestinationID (lower : Char → Char) (h other : Hotel) :
    (MergeWith lower h other).DestinationID = h.DestinationID :=
  rfl

theorem mergeHotelsByIDStep_empty (lower : Char → Char) (merged : GoMap String Hotel)
    (hotel : Hotel) (h : hotel.HotelID = "") :
    mergeHotelsByIDStep lower merged hotel = merged := by
  simp [mergeHotelsByIDStep, h]

theorem mem_keys_mergeHotelsByIDStep (lower : Char → Char) (merged : GoMap String Hotel)
    (hotel : Hotel) (k : String) :
    k ∈ (mergeHotelsByIDStep lower merged hotel).map Prod.fst ↔
      k ∈ merged.map Prod.fst ∨ (k ≠ "" ∧ hotel.HotelID = k) := by
  unfold mergeHotelsByIDStep
  by_cases he : hotel.HotelID = ""
  · rw [if_pos he]
    constructor
    · exact Or.inl
    · rintro (h | ⟨hne, hk⟩)
      · exact h
      · exact absurd (hk ▸ he) hne
  · rw [if_neg he]
    have key : ∀ v : Hotel, k ∈ (GoMap.set merged hotel.HotelID v).map Prod.fst ↔
        k ∈ merged.map Prod.fst ∨ (k ≠ "" ∧ hotel.HotelID = k) := by
      intro v
      rw [GoMap.mem_keys_set]
      constructor
      · rintro (rfl | h)
        · exact Or.inr ⟨he, rfl⟩
        · exact Or.inl h
      · rintro (h | ⟨_, hk⟩)
        · exact Or.inr h
        · exact Or.inl hk.symm
    split
    · exact key _
    · exact key _

theorem nodup_keys_mergeHotelsByIDStep (lower : Char → Char) (merged : GoMap String Hotel)
    (hotel : Hotel) (h : (merged.map Prod.fst).Nodup) :
    ((mergeHotelsByIDStep lower merged hotel).map Prod.fst).Nodup := by
  unfold mergeHotelsByIDStep
  split
  · exact h
  · split
    · exact GoMap.keys_set_nodup _ _ _ h
    · exact GoMap.keys_set_nodup _ _ _ h

theorem ids_mergeHotelsByIDStep (lower : Char → Char) (merged : GoMap String Hotel)
    (hotel : Hotel) (h : ∀ e ∈ merged, e.2.HotelID = e.1) :
    ∀ e ∈ mergeHotelsByIDStep lower merged hotel, e.2.HotelID = e.1 := by
  unfold mergeHotelsByIDStep
  split
  · exact h
  · split
    · rename_i existing hget
      intro e he
      rcases (GoMap.mem_set _ _ _ e).mp he with rfl | ⟨_, hm⟩
      · exact h (hotel.HotelID, existing) (GoMap.mem_of_get_eq_some hget)
      · exact h e hm
    · intro e he
      rcases (GoMap.mem_set _ _ _ e).mp he with rfl | ⟨_, hm⟩
      · rfl
      · exact h e hm

theorem foldl_mergeHotelsByIDStep (lower : Char → Char) (hotels : List Hotel)
    (merged : GoMap String Hotel) (hn : (merged.map Prod.fst).Nodup)
    (hi : ∀ e ∈ merged, e.2.HotelID = e.1) :
    ((hotels.foldl (mergeHotelsByIDStep lower) merged).map Prod.fst).Nodup ∧
      (∀ k, k ∈ (hotels.foldl (mergeHotelsByIDStep lower) merged).map Prod.fst ↔
        k ∈ merged.map Prod.fst ∨ (k ≠ "" ∧ ∃ hotel ∈ hotels, hotel.HotelID = k)) ∧
      ∀ e ∈ hotels.foldl (mergeHotelsByIDStep lower) merged, e.2.HotelID = e.1 := by
  induction hotels generalizing merged with
  | nil => exact ⟨hn, by simp, hi⟩
  | cons hotel rest ih =>
    obtain ⟨h1, h2, h3⟩ := ih (mergeHotelsByIDStep lower merged hotel)
      (nodup_keys_mergeHotelsByIDStep lower merged hotel hn)
      (ids_mergeHotelsByIDStep lower merged hotel hi)
    refine ⟨h1, fun k => ?_, h3⟩
    rw [List.foldl_cons, h2, mem_keys_mergeHotelsByIDStep]
    constructor
    · rintro ((h | ⟨hne, hk⟩) | ⟨hne, x, hx, hk⟩)
      · exact Or.inl h
      · exact Or.inr ⟨hne, hotel, List.mem_cons_self _ _, hk⟩
      · exact Or.inr ⟨hne, x, List.mem_cons_of_mem _ hx, hk⟩
    · rintro (h | ⟨hne, x, hx, hk⟩)
      · exact Or.inl (Or.inl h)
      · rcases List.mem_cons.mp hx with rfl | hx
        · exact Or.inl (Or.inr ⟨hne, hk⟩)
        · exact Or.inr ⟨hne, x, hx, hk⟩

theorem foldl_suppliers_eq (lower : Char → Char) (entries : List (String × List Hotel))
    (merged : GoMap String Hotel) :
    entries.foldl (fun m entry => entry.2.foldl (mergeHotelsByIDStep lower) m) merged =
      (entries.map Prod.snd).flatten.foldl (mergeHotelsByIDStep lower) merged := by
  induction entries generalizing merged with
  | nil => rfl
  | cons e es ih => simp [List.foldl_append, ih]

theorem foldl_mergeHotelsByIDStep_filter (lower : Char → Char) (hotels : List Hotel)
    (merged : GoMap String Hotel) :
    hotels.foldl (mergeHotelsByIDStep lower) merged =
      (hotels.filter (fun hotel => decide (hotel.HotelID ≠ ""))).foldl
        (mergeHotelsByIDStep lower) merged := by
  induction hotels generalizing merged with
  | nil => rfl
  | cons hotel rest ih =>
    by_cases he : hotel.HotelID = ""
    · simp [List.filter_cons, he, mergeHotelsByIDStep_empty lower merged hotel he, ih]
    · simp [List.filter_cons, he, ih]

/-- C11: the key set of the map returned by `mergeHotelsByID` is exactly the set of
non-empty `HotelID` values occurring in any supplier's record list (each key once), and the
record stored under each key has that key as its `HotelID`; records whose `HotelID` is
empty produce no entry and are merged into no entry: the loop body leaves the map as it is
for them, so a record list and the same list without them give the same map. -/
theorem mergeHotelsByID_keys (lower : Char → Char) (rt : Runtime)
    (hotelsBySupplier : GoMap String (List Hotel)) :
    ((mergeHotelsByID lower rt hotelsBySupplier).map Prod.fst).Nodup ∧
      (∀ k, k ∈ (mergeHotelsByID lower rt hotelsBySupplier).map Prod.fst ↔
        k ≠ "" ∧ ∃ entry ∈ hotelsBySupplier, ∃ hotel ∈ entry.2, hotel.HotelID = k) ∧
      (∀ e ∈ mergeHotelsByID lower rt hotelsBySupplier, e.2.HotelID = e.1) ∧
      (∀ (merged : GoMap String Hotel) (hotel : Hotel), hotel.HotelID = "" →
        mergeHotelsByIDStep lower merged hotel = merged) ∧
      (∀ (merged : GoMap String Hotel) (hotels : List Hotel),
        hotels.foldl (mergeHotelsByIDStep lower) merged =
          (hotels.filter (fun hotel => decide (hotel.HotelID ≠ ""))).foldl
            (mergeHotelsByIDStep lower) merged) := by
  obtain ⟨h1, h2, h3⟩ := foldl_mergeHotelsByIDStep lower
    ((rt.rangeSuppliers hotelsBySupplier).map Prod.snd).flatten []
    List.nodup_nil (by simp)
  unfold mergeHotelsByID
  rw [foldl_suppliers_eq]
  refine ⟨h1, fun k => ?_, h3, mergeHotelsByIDStep_empty lower,
    fun merged hotels => foldl_mergeHotelsByIDStep_filter lower hotels merged⟩
  rw [h2]
  simp only [List.map_nil, List.not_mem_nil, false_or, List.mem_flatten, List.mem_map,
    exists_exists_and_eq_and]
  constructor
  · rintro ⟨hne, hotel, ⟨entry, hentry, hmem⟩, hk⟩
    exact ⟨hne, entry, (rt.rangeSuppliers_perm _).mem_iff.mp hentry, hotel, hmem, hk⟩
  · rintro ⟨hne, entry, hentry, hotel, hmem, hk⟩
    exact ⟨hne, hotel, ⟨entry, (rt.rangeSuppliers_perm _).mem_iff.mpr hentry, hmem⟩, hk⟩

/-! ## `storeHotels` -/

theorem validate_eq_none_iff (h : Hotel) :
    Validate h = none ↔ h.HotelID ≠ "" ∧ 0 < h.DestinationID := by
  unfold Validate
  by_cases h1 : h.HotelID = ""
  · simp [h1]
  · by_cases h2 : h.DestinationID ≤ 0
    · simp [h1, h2]
    · simp only [h1, h2, if_false, ne_eq, not_false_eq_true, true_and, true_iff]
      omega

theorem isGrouping_set (groups : GoMap Int (List Hotel)) (records : List Hotel)
    (hotel : Hotel) (hv : Validate hotel = none) (h : IsGrouping groups records) :
    IsGrouping
      (GoMap.set groups hotel.DestinationID
        ((GoMap.get groups hotel.DestinationID).getD [] ++ [hotel]))
      (records ++ [hotel]) := by
  obtain ⟨hn, hp, hall⟩ := h
  refine ⟨GoMap.keys_set_nodup _ _ _ hn,
    (GoMap.flatten_set_append groups _ hotel hn).trans (hp.append_right _), ?_⟩
  intro e he
  rcases (GoMap.mem_set _ _ _ e).mp he with rfl | ⟨_, hm⟩
  · refine ⟨by simp, ?_⟩
    intro x hx
    rcases List.mem_append.mp hx with hx | hx
    · cases hg : GoMap.get groups hotel.DestinationID with
      | none => simp [hg] at hx
      | some old =>
        rw [hg] at hx
        exact (hall _ (GoMap.mem_of_get_eq_some hg)).2 x hx
    · rw [List.mem_singleton.mp hx]
      exact ⟨rfl, hv⟩
  · exact hall e hm

theorem foldl_storeHotelsStep {σ : Type} (repository : HotelRepository σ)
    (entries : List (String × Hotel)) (st : World σ × GoMap Int (List Hotel))
    (records : List Hotel) (h : IsGrouping st.2 records) :
    (entries.foldl (storeHotelsStep repository) st).1.calls =
        st.1.calls ++
          (validRecords entries).map (fun hotel => RepoCall.StoreHotelByID hotel.HotelID hotel) ∧
      IsGrouping (entries.foldl (storeHotelsStep repository) st).2
        (records ++ validRecords entries) := by
  induction entries generalizing st records with
  | nil => simpa [validRecords] using h
  | cons entry rest ih =>
    rw [List.foldl_cons]
    cases hv : Validate entry.2 with
    | some err =>
      have hs : storeHotelsStep repository st entry = st := by
        simp [storeHotelsStep, hv]
      have hr : validRecords (entry :: rest) = validRecords rest := by
        simp [validRecords, List.filter_cons, hv]
      rw [hs, hr]
      exact ih st records h
    | none =>
      have hr : validRecords (entry :: rest) = entry.2 :: validRecords rest := by
        simp [validRecords, List.filter_cons, hv]
      obtain ⟨h1, h2⟩ := ih (storeHotelsStep repository st entry) (records ++ [entry.2])
        (by
          simp only [storeHotelsStep, hv]
          exact isGrouping_set st.2 records entry.2 hv h)
      rw [hr]
      refine ⟨?_, by simpa using h2⟩
      rw [h1]
      simp [storeHotelsStep, hv]

theorem foldl_storeDestinationStep {σ : Type} (repository : HotelRepository σ)
    (groups : List (Int × List Hotel)) (w : World σ) :
    (groups.foldl (storeDestinationStep repository) w).calls =
      w.calls ++ groups.map (fun e => RepoCall.StoreHotelsByDestinationID e.1 e.2) := by
  induction groups generalizing w with
  | nil => simp
  | cons e es ih => simp [List.foldl_cons, ih, storeDestinationStep]

theorem batchesOf_append (a b : List RepoCall) :
    batchesOf (a ++ b) = batchesOf a ++ batchesOf b := by
  simp [batchesOf, List.filterMap_append]

theorem storedByID_append (a b : List RepoCall) :
    storedByID (a ++ b) = storedByID a ++ storedByID b := by
  simp [storedByID, List.filterMap_append]

theorem batchesOf_byID (l : List Hotel) :
    batchesOf (l.map (fun hotel => RepoCall.StoreHotelByID hotel.HotelID hotel)) = [] := by
  simp [batchesOf]

theorem batchesOf_byDestination (l : List (Int × List Hotel)) :
    batchesOf (l.map (fun e => RepoCall.StoreHotelsByDestinationID e.1 e.2)) = l := by
  induction l with
  | nil => rfl
  | cons x xs ih =>
    simp only [batchesOf, List.map_cons, List.filterMap_cons] at ih ⊢
    rw [ih]

theorem storedByID_byID (l : List Hotel) :
    storedByID (l.map (fun hotel => RepoCall.StoreHotelByID hotel.HotelID hotel)) =
      l.map (fun hotel => (hotel.HotelID, hotel)) := by
  induction l with
  | nil => rfl
  | cons x xs ih =>
    simp only [storedByID, List.map_cons, List.filterMap_cons] at ih ⊢
    rw [ih]

theorem storedByID_byDestination (l : List (Int × List Hotel)) :
    storedByID (l.map (fun e => RepoCall.StoreHotelsByDestinationID e.1 e.2)) = [] := by
  simp [storedByID]

theorem validRecords_perm {a b : List (String × Hotel)} (h : a.Perm b) :
    (validRecords a).Perm (validRecords b) :=
  (h.map Prod.snd).filter _

/-- The calls of `storeHotels`: one `StoreHotelByID` per valid record in the order of the
first loop, then one `StoreHotelsByDestinationID` per entry of a grouping of them. -/
theorem storeHotelsCalls_eq {σ : Type} (repository : HotelRepository σ) (rt : Runtime)
    (store : σ) (hotels : GoMap String Hotel) :
    ∃ groups : GoMap Int (List Hotel),
      IsGrouping groups (validRecords (rt.rangeHotels hotels)) ∧
        storeHotelsCalls repository rt store hotels =
          (validRecords (rt.rangeHotels hotels)).map
              (fun hotel => RepoCall.StoreHotelByID hotel.HotelID hotel) ++
            (rt.rangeDestinations groups).map
              (fun e => RepoCall.StoreHotelsByDestinationID e.1 e.2) := by
  obtain ⟨h1, h2⟩ := foldl_storeHotelsStep repository (rt.rangeHotels hotels)
    ({ store := store, calls := [] }, []) []
    ⟨List.nodup_nil, List.Perm.refl _, by simp⟩
  refine ⟨_, by simpa using h2, ?_⟩
  simp only [storeHotelsCalls, storeHotels, storeHotelsGroup, foldl_storeDestinationStep, h1]
  simp

/-- C11 at a concrete mapping: two suppliers send the record `h1`, one of them also a
record without identity; the merged map has the single key `h1`. -/
theorem mergeHotelsByID_keys_witness :
    (mergeHotelsByID Char.toLower inOrder twoSupplierResults).map Prod.fst = ["h1"] ∧
      ((mergeHotelsByID Char.toLower inOrder twoSupplierResults).map Prod.fst).Nodup :=
  ⟨by decide, (mergeHotelsByID_keys Char.toLower inOrder twoSupplierResults).1⟩

/-- C12: for every merged identity map, every iteration order and every repository, the
batches passed to `StoreHotelsByDestinationID` have pairwise distinct keys and together
hold exactly the records that pass `Validate`, each as often as the map holds it (once);
every record of a batch passes `Validate` and has the batch's key as its `DestinationID`,
so it is in no other batch and every batch key is positive; and the records passed to
`StoreHotelByID` are exactly the records that pass `Validate`, each under its `HotelID`,
so a record that fails `Validate` is in no batch and is never passed to
`StoreHotelByID`. -/
theorem storeHotels_partitions_valid_records {σ : Type} (repository : HotelRepository σ)
    (rt : Runtime) (store : σ) (hotels : GoMap String Hotel) :
    ((batchesOf (storeHotelsCalls repository rt store hotels)).map Prod.fst).Nodup ∧
      ((batchesOf (storeHotelsCalls repository rt store hotels)).map Prod.snd).flatten.Perm
        (validRecords hotels) ∧
      (∀ b ∈ batchesOf (storeHotelsCalls repository rt store hotels),
        0 < b.1 ∧ ∀ hotel ∈ b.2, hotel.DestinationID = b.1 ∧ Validate hotel = none) ∧
      (storedByID (storeHotelsCalls repository rt store hotels)).Perm
        ((validRecords hotels).map (fun hotel => (hotel.HotelID, hotel))) := by
  obtain ⟨groups, ⟨hn, hp, hall⟩, hcalls⟩ := storeHotelsCalls_eq repository rt store hotels
  have hv := validRecords_perm (rt.rangeHotels_perm hotels)
  have hb : batchesOf (storeHotelsCalls repository rt store hotels) =
      rt.rangeDestinations groups := by
    rw [hcalls, batchesOf_append, batchesOf_byID, batchesOf_byDestination, List.nil_append]
  have hs : storedByID (storeHotelsCalls repository rt store hotels) =
      (validRecords (rt.rangeHotels hotels)).map (fun hotel => (hotel.HotelID, hotel)) := by
    rw [hcalls, storedByID_append, storedByID_byID, storedByID_byDestination,
      List.append_nil]
  have hg := rt.rangeDestinations_perm groups
  rw [hb, hs]
  refine ⟨(hg.map Prod.fst).nodup_iff.mpr hn, ((hg.map Prod.snd).flatten.trans hp).trans hv,
    ?_, hv.map _⟩
  intro b hb
  obtain ⟨hne, hrec⟩ := hall b (hg.mem_iff.mp hb)
  refine ⟨?_, hrec⟩
  obtain ⟨x, hx⟩ := List.exists_mem_of_ne_nil _ hne
  obtain ⟨hd, hval⟩ := hrec x hx
  rw [← hd]
  exact ((validate_eq_none_iff x).mp hval).2

/-- C12 at a concrete map: the record `h1` of group 5 is stored and batched under 5; the
record `h2` of group 0 fails `Validate` and reaches the repository in no call. -/
theorem storeHotels_partitions_valid_records_witness :
    storeHotelsCalls failingRepository inOrder () mergedWithInvalid =
        [RepoCall.StoreHotelByID "h1" (CleanData supplierB),
          RepoCall.StoreHotelsByDestinationID 5 [CleanData supplierB]] ∧
      Validate (CleanData noGroup) = some "destination ID must be positive" ∧
      ((batchesOf (storeHotelsCalls failingRepository inOrder () mergedWithInvalid)).map
        Prod.fst).Nodup :=
  ⟨by decide, by decide,
    (storeHotels_partitions_valid_records failingRepository inOrder () mergedWithInvalid).1⟩

/-! ## `Validate` and the Normalizer -/

/-- C13: `Validate` returns an error if and only if the `HotelID` is the empty string or
the `DestinationID` is less than or equal to zero. -/
theorem validate_error_iff (h : Hotel) :
    Validate h ≠ none ↔ h.HotelID = "" ∨ h.DestinationID ≤ 0 := by
  rw [Ne, validate_eq_none_iff]
  constructor
  · intro hn
    by_cases h1 : h.HotelID = ""
    · exact Or.inl h1
    · exact Or.inr (not_lt.mp (fun h2 => hn ⟨h1, h2⟩))
  · rintro (h1 | h2) ⟨h3, h4⟩
    · exact h3 h1
    · exact absurd h4 (not_lt.mpr h2)

/-- C14: `cleanImages` drops an entry exactly when its link is empty after trimming,
whatever its caption, and returns the surviving entries in their original order with link
and caption trimmed; so after `CleanData` every image in `Images.Rooms` and `Images.Site`
has a non-empty link. -/
theorem cleanImages_drops_empty_links (images : List Image) (h : Hotel) :
    cleanImages images =
        (images.filter (fun img => decide (TrimSpace img.Link ≠ ""))).map trimImage ∧
      (∀ img ∈ (CleanData h).Images.Rooms, img.Link ≠ "") ∧
      (∀ img ∈ (CleanData h).Images.Site, img.Link ≠ "") := by
  refine ⟨?_, fun img himg => (mem_cleanImages himg).2,
    fun img himg => (mem_cleanImages himg).2⟩
  rw [cleanImages_eq, List.filter_map]
  rfl

/-- C14 at the specification's example: an image with a blank link is dropped although
its caption is not empty, and the survivor is trimmed. -/
theorem cleanImages_drops_empty_links_witness :
    cleanImages rawImages = [{ Link := "u1", Caption := "Bar" }] ∧
      cleanImages rawImages =
        (rawImages.filter (fun img => decide (TrimSpace img.Link ≠ ""))).map trimImage :=
  ⟨by decide, (cleanImages_drops_empty_links rawImages supplierA).1⟩

/-- C15: `cleanStringSlice` returns exactly the trimmed forms of the entries that are
non-empty after trimming, in their original relative order and with duplicates kept: it
neither de-duplicates nor sorts. -/
theorem cleanStringSlice_trims_and_drops (slice : List String) :
    cleanStringSlice slice =
      (slice.filter (fun s => decide (TrimSpace s ≠ ""))).map TrimSpace := by
  rw [cleanStringSlice_eq, List.filter_map]
  rfl

/-- C15 at a concrete list: the blank entry is dropped, the duplicate `b` is kept and the
order is as received. -/
theorem cleanStringSlice_trims_and_drops_witness :
    cleanStringSlice [" b", "  ", "a ", "b"] = ["b", "a", "b"] :=
  (cleanStringSlice_trims_and_drops [" b", "  ", "a ", "b"]).trans (by decide)

/-! ## The identity and the group key under merge -/

theorem foldl_MergeWith_keys (lower : Char → Char) (others : List Hotel) (h : Hotel) :
    (others.foldl (MergeWith lower) h).HotelID = h.HotelID ∧
      (others.foldl (MergeWith lower) h).DestinationID = h.DestinationID := by
  induction others generalizing h with
  | nil => exact ⟨rfl, rfl⟩
  | cons o os ih => exact ih (MergeWith lower h o)

/-- C17: `h.MergeWith(o)` leaves `h.HotelID` and `h.DestinationID` unchanged: the group key
of the incoming record is never adopted, so a canonical record seeded by a record with a
non-positive `DestinationID` still fails `Validate` after merging any number of
records. -/
theorem mergeWith_keeps_identity_and_group (lower : Char → Char) (h o : Hotel)
    (others : List Hotel) :
    (MergeWith lower h o).HotelID = h.HotelID ∧
      (MergeWith lower h o).DestinationID = h.DestinationID ∧
      (h.DestinationID ≤ 0 → Validate (others.foldl (MergeWith lower) h) ≠ none) := by
  refine ⟨rfl, rfl, fun hd hv => ?_⟩
  have hpos := ((validate_eq_none_iff _).mp hv).2
  rw [(foldl_MergeWith_keys lower others h).2] at hpos
  exact absurd hpos (not_lt.mpr hd)

/-- C17 at a concrete seed: a record of group 0 merged with a record of group 5 keeps
group 0 and fails `Validate`. -/
theorem mergeWith_keeps_identity_and_group_witness :
    (CleanData noGroup).DestinationID ≤ 0 ∧ 0 < (CleanData supplierB).DestinationID ∧
      (MergeWith Char.toLower (CleanData noGroup) (CleanData supplierB)).DestinationID = 0 ∧
      Validate ([CleanData supplierB].foldl (MergeWith Char.toLower) (CleanData noGroup)) ≠
        none :=
  ⟨by decide, by decide, by decide,
    (mergeWith_keeps_identity_and_group Char.toLower (CleanData noGroup)
      (CleanData supplierB) [CleanData supplierB]).2.2 (by decide)⟩

end HotelPipeline
